import Mathlib

/-!
Verification of the Texture-tool repository (src/texture_tool/state.py and
src/texture_tool/ui.py) against its natural-language specification.

The Python code is shallowly embedded: pure fragments become Lean functions,
the mutable `State` fields touched by an event handler become an explicit
record threaded through the handler, machine pixel values are `Nat` (they are
8-bit channel samples in the source), and fallible steps return `Except`.

External library behaviour (Pillow, `os.walk`) that the source calls is
modelled from its documented semantics and is flagged in the doc comment of
each definition concerned; the floating-point bilinear kernel and Pillow's
adaptive palette quantizer are kept as parameters of the pipeline, and every
theorem about the pipeline quantifies over them.
-/

namespace TextureTool

/-! ## Pixel and image model (Pillow images as used by state.process_image) -/

/-- One pixel sample: red, green, blue, alpha channels. Pillow stores 8-bit
channel values; channel range is imposed by hypotheses where it matters. -/
structure Pixel where
  r : Nat
  g : Nat
  b : Nat
  a : Nat
deriving DecidableEq, Repr

/-- Pillow image modes reachable in state.process_image: full-colour RGB,
RGB with alpha, palette-indexed, and 8-bit greyscale. -/
inductive PILMode
  | RGB
  | RGBA
  | P
  | L
deriving DecidableEq, Repr

/-- A Pillow image: mode, size, row-major pixel buffer, and (for mode `P`)
the colour palette. For mode `P` the palette index of a pixel is stored in
its `r` field, mirroring Pillow's one-byte-per-pixel palette storage. -/
structure PILImage where
  mode : PILMode
  width : Nat
  height : Nat
  pix : List Pixel
  palette : List Pixel
deriving DecidableEq, Repr

/-- Palette lookup with Pillow's zero default for missing entries. -/
def lookupPalette (pal : List Pixel) (i : Nat) : Pixel :=
  pal.getD i { r := 0, g := 0, b := 0, a := 255 }

/-- Pillow `Image.convert("RGB")`: identity on RGB, drops the alpha channel
of an RGBA image (internally the fourth byte of an RGB image is the constant
pad 255), expands palette indices through the palette, replicates grey. -/
def convertRGB (img : PILImage) : PILImage :=
  match img.mode with
  | PILMode.RGB => img
  | PILMode.RGBA =>
      { img with mode := PILMode.RGB
               , pix := img.pix.map (fun p => { p with a := 255 })
               , palette := [] }
  | PILMode.P =>
      { img with mode := PILMode.RGB
               , pix := img.pix.map (fun p => { lookupPalette img.palette p.r with a := 255 })
               , palette := [] }
  | PILMode.L =>
      { img with mode := PILMode.RGB
               , pix := img.pix.map (fun p => { r := p.r, g := p.r, b := p.r, a := 255 })
               , palette := [] }

/-- The full-colour raster a viewer decodes from the saved PNG: palette
images expand through their palette, RGB images carry the constant pad
alpha, RGBA images keep their alpha plane. -/
def rasterOf (img : PILImage) : List Pixel :=
  match img.mode with
  | PILMode.RGBA => img.pix
  | PILMode.RGB => img.pix.map (fun p => { p with a := 255 })
  | PILMode.P => img.pix.map (fun p => { lookupPalette img.palette p.r with a := 255 })
  | PILMode.L => img.pix.map (fun p => { r := p.r, g := p.r, b := p.r, a := 255 })

/-! ## state.process_image, lines 45-103 -/

/-- The 5-6-5 truncation of one pixel, from state.py lines 77-82:
`r = (r >> 3) << 3`, `g = (g >> 2) << 2`, `b = (b >> 3) << 3`. -/
def quantize565 (p : Pixel) : Pixel :=
  { r := (p.r >>> 3) <<< 3
  , g := (p.g >>> 2) <<< 2
  , b := (p.b >>> 3) <<< 3
  , a := p.a }

/-- The 16-bit branch's per-pixel loop over the whole buffer
(state.py lines 74-82). -/
def quantize565Image (img : PILImage) : PILImage :=
  { img with pix := img.pix.map quantize565 }

/-- The spec's nearest-neighbour rule: the destination pixel at (x, y)
samples the source at `floor(src_dim * dst_coord / dst_dim)` per axis. -/
def nearestKernel (img : PILImage) (w h : Nat) : List Pixel :=
  (List.range h).flatMap (fun y =>
    (List.range w).map (fun x =>
      img.pix.getD ((img.height * y / h) * img.width + img.width * x / w)
        { r := 0, g := 0, b := 0, a := 0 }))

/-- Pillow `Image.resize(size, resample)`: raises `ValueError` ("height and
width must be > 0") on a non-positive target dimension, otherwise resamples
with the chosen kernel, preserving the mode. The kernel is a parameter:
`nearestKernel` for NEAREST, the caller-supplied float kernel for BILINEAR. -/
def pilResize (kernel : PILImage → Nat → Nat → List Pixel) (w h : Int)
    (img : PILImage) : Except String PILImage :=
  if w ≤ 0 ∨ h ≤ 0 then Except.error "height and width must be > 0"
  else Except.ok
    { mode := img.mode
    , width := w.toNat
    , height := h.toNat
    , pix := kernel img w.toNat h.toNat
    , palette := img.palette }

/-- The State fields read by state.process_image (lines 36-43): target size,
resample-mode string, colour depth in bits, and the dithering flag. -/
structure ProcessingRequest where
  resize_width : Int
  resize_height : Int
  resize_mode : String
  color_depth : Int
  dithering : Bool
deriving Repr

/-- Resample-kernel selection from state.py lines 61-66: "nearest" and
"point" both select NEAREST, anything else selects BILINEAR (whose
floating-point kernel is the parameter `bilinearKernel`). -/
def kernelOf (bilinearKernel : PILImage → Nat → Nat → List Pixel)
    (mode : String) : PILImage → Nat → Nat → List Pixel :=
  if mode = "nearest" then nearestKernel
  else if mode = "point" then nearestKernel
  else bilinearKernel

/-- state.py lines 57-58: `if img.mode not in ("RGB", "RGBA"): img =
img.convert("RGB")`. -/
def normalizeMode (img : PILImage) : PILImage :=
  if img.mode = PILMode.RGB ∨ img.mode = PILMode.RGBA then img else convertRGB img

/-- state.process_image lines 52-99, from the opened image onward (the
empty-selection guard and file open are I/O boundary; the spec's `process`
takes decoded pixels). `convertAdaptiveP` stands for Pillow
`Image.convert("P", palette=Image.ADAPTIVE, colors=n)`; note the source
passes it no dithering argument at all. A raised `ValueError` from resize
becomes the `Except.error` branch (the source catches it at line 101). -/
def process_image (bilinearKernel : PILImage → Nat → Nat → List Pixel)
    (convertAdaptiveP : Nat → PILImage → PILImage)
    (req : ProcessingRequest) (img0 : PILImage) : Except String PILImage :=
  let img := normalizeMode img0
  match pilResize (kernelOf bilinearKernel req.resize_mode)
      req.resize_width req.resize_height img with
  | Except.error e => Except.error e
  | Except.ok resized =>
      Except.ok
        (if req.color_depth = 16 then
          quantize565Image (convertRGB resized)
        else if req.color_depth = 8 then
          let paletted := convertAdaptiveP 256 resized
          if req.dithering then convertRGB paletted else paletted
        else if req.color_depth = 4 then
          let paletted := convertAdaptiveP 16 resized
          if req.dithering then convertRGB paletted else paletted
        else resized)

/-! ## Stable sorting

Python's `sorted` is a stable comparison sort; its output is determined by
that contract, so any stable sort denotes the same function. The embedding
uses a structural insertion sort (kernel-reducible, unlike well-founded
merge sort). -/

/-- Insert `x` into a `le`-sorted list, before the first element `y` with
`le x y`; with a total `le` this keeps the list sorted and, used by
`stableSort`, places earlier-input elements before equal later ones. -/
def insertSorted (le : α → α → Bool) (x : α) : List α → List α
  | [] => [x]
  | y :: ys => if le x y then x :: y :: ys else y :: insertSorted le x ys

/-- Stable insertion sort. -/
def stableSort (le : α → α → Bool) (l : List α) : List α :=
  l.foldr (insertSorted le) []

/-! ## state.toggle_folder, lines 241-251 (paths as the source's strings,
`os.sep` being "/") -/

/-- Python `f.startswith(x)`, computed on the character lists (the
byte-position routine the standard library ships denotes the same function
but is opaque to kernel reduction). -/
def startswith (f x : String) : Bool :=
  x.data.isPrefixOf f.data

/-- state.toggle_folder: a member path is removed together with every member
beginning with it plus the separator; a non-member path is appended. -/
def toggle_folder (expanded_folders : List String) (folder_path : String) :
    List String :=
  if folder_path ∈ expanded_folders then
    expanded_folders.filter
      (fun f => f != folder_path && !(startswith f (folder_path ++ "/")))
  else
    expanded_folders ++ [folder_path]

/-! ## TreeIndexer: state.load_images, lines 165-239

Relative paths are represented by their component lists (the source stores
the `os.sep`-joined strings and immediately splits them back at the
separator; joining is injective on separator-free components, so the
component list is a faithful rendering of the path value, with `[]` for the
empty relative path). -/

/-- state.FileItem (state.py lines 12-18), paths in component form. -/
structure FileItem where
  name : String
  path : List String
  is_folder : Bool
  level : Nat
  parent : List String
deriving DecidableEq, Repr

/-- One `(root, dirs, files)` triple yielded by `os.walk`, relativized as in
state.py lines 179-181 (`root = []` is the top directory); the `dirs`
component is never read by the source and is omitted. -/
structure WalkEntry where
  root : List String
  files : List String
deriving DecidableEq, Repr

/-- state.py line 167. -/
def image_extensions : List String :=
  [".png", ".jpg", ".jpeg", ".bmp", ".tga", ".webp", ".exr", ".hdr"]

/-- `pathlib.PurePath.suffix`: the final-dot suffix of the name, nonempty
only when that dot is interior (neither leading nor trailing). -/
def pathSuffix (name : String) : String :=
  let cs := name.data
  match (List.indexOf? '.' cs.reverse).map (fun j => cs.length - 1 - j) with
  | none => ""
  | some i => if 0 < i ∧ i < cs.length - 1 then { data := cs.drop i } else ""

/-- Python `str.lower`, character by character (the standard library's
String.toLower denotes the same map but is opaque to kernel reduction). -/
def lowerStr (s : String) : String :=
  { data := s.data.map Char.toLower }

/-- Python `str.upper`, character by character. -/
def upperStr (s : String) : String :=
  { data := s.data.map Char.toUpper }

/-- state.py line 205: `Path(file).suffix.lower() in image_extensions`. -/
def isImageFile (name : String) : Bool :=
  image_extensions.contains (lowerStr (pathSuffix name))

/-- The Folder FileItem built at state.py lines 192-198 for prefix `i + 1`
of the split relative root. -/
def mkFolderItem (parts : List String) (i : Nat) : FileItem :=
  { name := parts.getD i ""
  , path := parts.take (i + 1)
  , is_folder := true
  , level := i
  , parent := parts.take i }

/-- The same Folder item expressed through its own path alone (equal to
`mkFolderItem parts i` whenever the path is `parts.take (i + 1)` with
`i < parts.length`; proved below). -/
def canonFolderItem (k : List String) : FileItem :=
  { name := k.getLastD ""
  , path := k
  , is_folder := true
  , level := k.length - 1
  , parent := k.dropLast }

/-- One value of the source's `folder_contents` dict: the folder's item and
its direct image-file children. -/
structure FolderData where
  item : FileItem
  children : List FileItem
deriving DecidableEq, Repr

/-- The `folder_contents` dict, as an insertion-ordered association list
(Python dicts preserve insertion order). -/
abbrev FolderDict := List (List String × FolderData)

/-- The key sequence of the dict. -/
def keysOf (fc : FolderDict) : List (List String) :=
  fc.map Prod.fst

/-- The body of the loop at state.py lines 186-200 for one index `i`:
insert the `i + 1`-component prefix if it is not yet a key. -/
def insertFolder (parts : List String) (fc : FolderDict) (i : Nat) : FolderDict :=
  let fp := parts.take (i + 1)
  if fc.any (fun kv => kv.1 == fp) then fc
  else fc ++ [(fp, { item := mkFolderItem parts i, children := [] })]

/-- state.py lines 185-200: materialize every prefix of a walked directory. -/
def addFolders (parts : List String) (fc : FolderDict) : FolderDict :=
  (List.range parts.length).foldl (insertFolder parts) fc

/-- The File FileItem built at state.py lines 208-214. -/
def mkFileItem (root : List String) (f : String) : FileItem :=
  { name := f
  , path := root ++ [f]
  , is_folder := false
  , level := root.length
  , parent := root }

/-- state.py lines 203-214: the image files of one walk entry, in walk
order. -/
def imageFilesOf (root : List String) (files : List String) : List FileItem :=
  (files.filter isImageFile).map (mkFileItem root)

/-- state.py line 218: extend the children of the entry keyed `key`. -/
def extendChildren (fc : FolderDict) (key : List String)
    (imgs : List FileItem) : FolderDict :=
  fc.map (fun kv =>
    if kv.1 = key then (kv.1, { kv.2 with children := kv.2.children ++ imgs })
    else kv)

/-- Name-order comparison used by every `sorted(..., key=lambda x: x.name)`
call in the source. -/
def nameLe (a b : FileItem) : Bool := a.name ≤ b.name

/-- `sorted(items, key=lambda x: x.name)`. -/
def sortByName (l : List FileItem) : List FileItem :=
  stableSort nameLe l

/-- The body of the `os.walk` loop (state.py lines 178-221) for one entry,
acting on the pair (folder dict, root-level item list). -/
def processEntry (st : FolderDict × List FileItem) (e : WalkEntry) :
    FolderDict × List FileItem :=
  let fc := if e.root = [] then st.1 else addFolders e.root st.1
  let imgs := imageFilesOf e.root e.files
  if e.root = [] then
    (fc, st.2 ++ sortByName imgs)
  else if fc.any (fun kv => kv.1 == e.root) then
    (extendChildren fc e.root imgs, st.2)
  else (fc, st.2)

/-- Lexicographic key order on component paths, mirroring the key order of
`sorted(folder_contents.items())`. -/
def pathLe : List String → List String → Bool
  | [], _ => true
  | _ :: _, [] => false
  | a :: as, b :: bs => if a < b then true else if a = b then pathLe as bs else false

/-- Pair order by key for `sorted(folder_contents.items())` (dict keys are
distinct, so the comparison never reaches the values). -/
def keyLe (a b : List String × FolderData) : Bool := pathLe a.1 b.1

/-- `sorted(folder_contents.items())`. -/
def sortDict (fc : FolderDict) : FolderDict :=
  stableSort keyLe fc

/-- state.add_folder_and_children (state.py lines 224-232): emit the folder
item, its name-sorted file children, then recursively every dict entry whose
parent is this folder, in sorted-dict order. `fuel` bounds the recursion
depth; the source recursion terminates because each child key is strictly
longer than its parent's, and the fuel passed by `load_images` (the dict
size) is never exhausted on dictionaries the fold builds. -/
def addFolderAndChildren (fcS : FolderDict) :
    Nat → List String → FolderData → List FileItem
  | 0, _, _ => []
  | fuel + 1, fp, fd =>
      fd.item :: (sortByName fd.children ++
        (fcS.filter (fun kv => kv.2.item.parent == fp)).flatMap
          (fun kv => addFolderAndChildren fcS fuel kv.1 kv.2))

/-- The top-level loop of state.py lines 235-237: every root-level folder,
in sorted-dict order. -/
def topEmit (fcS : FolderDict) (fuel : Nat) : List FileItem :=
  fcS.flatMap (fun kv =>
    if kv.2.item.parent = [] then addFolderAndChildren fcS fuel kv.1 kv.2
    else [])

/-- state.load_images from the walk onward (state.py lines 173-239): fold
the walk entries, then emit root files followed by the folder tree. -/
def load_images (walk : List WalkEntry) : List FileItem :=
  let st := walk.foldl processEntry ([], [])
  st.2 ++ topEmit (sortDict st.1) st.1.length

/-- state.load_images including the existence guard of lines 169-171; a root
that exists but is not a directory makes `os.walk` yield no entries, which is
the `walk = []` instance of the second argument. -/
def load_images_checked (root_exists : Bool) (walk : List WalkEntry) :
    List FileItem :=
  if root_exists then load_images walk else []

/-- The predicate "is a Folder node with path `q`". -/
def isFolderWithPath (q : List String) (y : FileItem) : Bool :=
  y.is_folder && y.path == q

/-- Invariants of every dict the walk fold builds: keys are nonempty and
distinct, each value's item is the canonical folder item of its key, and
each child is a file parented to its key. -/
def GoodDict (fc : FolderDict) : Prop :=
  (∀ kv ∈ fc, kv.1 ≠ ([] : List String) ∧ kv.2.item = canonFolderItem kv.1) ∧
  (∀ kv ∈ fc, ∀ c ∈ kv.2.children, c.is_folder = false ∧ c.parent = kv.1) ∧
  (keysOf fc).Nodup

/-- Two walks of the same unchanged directory tree: the same directories
(in any order) with the same files per directory (in any order). -/
def EquivWalk (w₁ w₂ : List WalkEntry) : Prop :=
  (w₁.map WalkEntry.root).Perm (w₂.map WalkEntry.root) ∧
  ∀ e₁ ∈ w₁, ∀ e₂ ∈ w₂, e₁.root = e₂.root → e₁.files.Perm e₂.files

/-- A folder-dict value with its children name-sorted (emission sorts the
children anyway, so this normalization does not change the output). -/
def normFD (fd : FolderData) : FolderData :=
  { fd with children := sortByName fd.children }

/-- Child-sorting normalization of a dict. -/
def normDict (fc : FolderDict) : FolderDict :=
  fc.map (fun kv => (kv.1, normFD kv.2))

/-- The folder-dict component of `processEntry` on its own (the dict never
depends on the root-item list accumulated alongside it). -/
def processFC (fc : FolderDict) (e : WalkEntry) : FolderDict :=
  if e.root = [] then fc
  else if (addFolders e.root fc).any (fun kv => kv.1 == e.root) then
    extendChildren (addFolders e.root fc) e.root (imageFilesOf e.root e.files)
  else addFolders e.root fc

/-- The children recorded under key `k` (empty when `k` is not a key). -/
def childrenOfKey (fc : FolderDict) (k : List String) : List FileItem :=
  ((fc.find? (fun kv => kv.1 == k)).map (fun kv => kv.2.children)).getD []

/-- All files the walk reports directly inside directory `k`. -/
def filesForRoot (walk : List WalkEntry) (k : List String) : List String :=
  (walk.filter (fun e => e.root = k)).flatMap WalkEntry.files

/-- The normalized dict value the walk determines at key `k`. -/
def canonValue (walk : List WalkEntry) (k : List String) : FolderData :=
  { item := canonFolderItem k
  , children := sortByName (imageFilesOf k (filesForRoot walk k)) }

/-- Every element of `O` whose parent path is nonempty is preceded — within
`ctx` followed by the part of `O` before it — by a Folder item carrying that
parent path. -/
def ParentCovered (ctx O : List FileItem) : Prop :=
  ∀ a x b, O = a ++ x :: b → x.parent ≠ ([] : List String) →
    ∃ y ∈ ctx ++ a, y.is_folder = true ∧ y.path = x.parent

/-! ## ui.is_item_visible, ui.py lines 7-15 -/

/-- ui.is_item_visible: a root item (empty parent) is always visible,
otherwise the item is visible exactly when its direct parent is in the
expanded set. -/
def is_item_visible (expanded_folders : List (List String)) (item : FileItem) :
    Bool :=
  item.parent == ([] : List String) || expanded_folders.contains item.parent

/-- Stated from the spec's words: the ancestor folders of a node are the
nonempty prefixes of its parent path. -/
def ancestorFolders (parent : List String) : List (List String) :=
  (List.range parent.length).map (fun i => parent.take (i + 1))

/-- Stated from the spec's words: a node is visible when every ancestor
folder on its path from the root is expanded (root-level nodes vacuously). -/
def spec_visible (expanded_folders : List (List String))
    (parent : List String) : Bool :=
  (ancestorFolders parent).all (fun q => expanded_folders.contains q)

/-- Expansion states closed under ancestors: every reachable state is such,
because expanding a folder requires clicking it, hence its being visible. -/
def AncestorClosed (expanded_folders : List (List String)) : Prop :=
  ∀ p ∈ expanded_folders, ∀ q ∈ ancestorFolders p, q ∈ expanded_folders

/-! ## state.select_image, lines 253-300 -/

/-- The State fields touched by state.select_image (the remaining State
fields are not written by it). -/
structure SelState where
  selected_image : String
  selected_image_data : String
  image_format : String
  image_resolution : String
  image_file_size : String
  image_width : Nat
  image_height : Nat
deriving DecidableEq, Repr

/-- Everything the try-block of select_image reads from the filesystem and
Pillow when it succeeds: byte size, decoder-reported format (None when the
decoder reports none), pixel dimensions, and the base64 payload of the raw
file bytes. -/
structure LoadedImageInfo where
  file_size : Nat
  pil_format : Option String
  width : Nat
  height : Nat
  base64_data : String
deriving Repr

/-- Round `num * 10 / den` to the nearest integer, ties to even — the value
CPython's `f"{num / den:.1f}"` prints (times ten) when `num / den` is exact
in binary floating point, which holds here because `den` is a power of two
and `num` is far below 2 to the 53rd. -/
def roundHalfEvenTenths (num den : Nat) : Nat :=
  let q := num * 10
  let t := q / den
  let r := q % den
  if den < 2 * r then t + 1
  else if 2 * r < den then t
  else if t % 2 = 0 then t else t + 1

/-- state.py lines 262-267: human-readable size with 1024 thresholds and one
decimal for KB/MB. -/
def humanSize (file_size : Nat) : String :=
  if file_size < 1024 then s!"{file_size} B"
  else if file_size < 1024 * 1024 then
    let t := roundHalfEvenTenths file_size 1024
    let hi := t / 10
    let lo := t % 10
    s!"{hi}.{lo} KB"
  else
    let t := roundHalfEvenTenths file_size (1024 * 1024)
    let hi := t / 10
    let lo := t % 10
    s!"{hi}.{lo} MB"

/-- `str.lstrip(".")`: remove every leading dot. -/
def stripLeadingDots (s : String) : String :=
  { data := s.data.dropWhile (fun c => c = '.') }

/-- state.py line 271 fallback: `Path(image_path).suffix.upper().lstrip(".")`. -/
def fallbackFormat (image_path : String) : String :=
  stripLeadingDots (upperStr (pathSuffix image_path))

/-- state.py lines 280-290: MIME type from the file extension. -/
def mimeOf (image_path : String) : String :=
  let ext := lowerStr (pathSuffix image_path)
  if ext = ".jpg" ∨ ext = ".jpeg" then "image/jpeg"
  else if ext = ".png" then "image/png"
  else if ext = ".bmp" then "image/bmp"
  else if ext = ".webp" then "image/webp"
  else "image/png"

/-- state.select_image: the selected path is recorded before the try-block;
on any failure inside it (missing, unreadable or undecodable file — `load =
none`) the except-clause at lines 293-300 resets every derived display field
to its empty default, overwriting progress already made, while the recorded
path stays. -/
def select_image (st : SelState) (image_path : String)
    (load : Option LoadedImageInfo) : SelState :=
  let st1 := { st with selected_image := image_path }
  match load with
  | some info =>
      let w := info.width
      let h := info.height
      { st1 with
        image_file_size := humanSize info.file_size
      , image_format := info.pil_format.getD (fallbackFormat image_path)
      , image_resolution := s!"{w} × {h}"
      , image_width := info.width
      , image_height := info.height
      , selected_image_data :=
          "data:" ++ mimeOf image_path ++ ";base64," ++ info.base64_data }
  | none =>
      { st1 with
        selected_image_data := ""
      , image_format := ""
      , image_resolution := ""
      , image_file_size := ""
      , image_width := 0
      , image_height := 0 }

/-! ## Sorting helpers -/

theorem insertSorted_perm (le : α → α → Bool) (x : α) (l : List α) :
    (insertSorted le x l).Perm (x :: l) := by
  induction l with
  | nil => simp [insertSorted]
  | cons y ys ih =>
      by_cases h : le x y = true
      · simp [insertSorted, h]
      · have h1 : insertSorted le x (y :: ys) = y :: insertSorted le x ys := by
          simp [insertSorted, h]
        rw [h1]
        exact (ih.cons y).trans (List.Perm.swap x y ys)

theorem stableSort_perm (le : α → α → Bool) (l : List α) :
    (stableSort le l).Perm l := by
  induction l with
  | nil => simp [stableSort]
  | cons a t ih =>
      have h1 : stableSort le (a :: t) = insertSorted le a (stableSort le t) := rfl
      rw [h1]
      exact (insertSorted_perm le a (stableSort le t)).trans (ih.cons a)

theorem mem_stableSort (le : α → α → Bool) (l : List α) (a : α) :
    a ∈ stableSort le l ↔ a ∈ l :=
  (stableSort_perm le l).mem_iff

theorem insertSorted_pairwise (le : α → α → Bool)
    (htrans : ∀ a b c, le a b = true → le b c = true → le a c = true)
    (htotal : ∀ a b, le a b = true ∨ le b a = true)
    (x : α) (l : List α) (hl : l.Pairwise (fun a b => le a b = true)) :
    (insertSorted le x l).Pairwise (fun a b => le a b = true) := by
  induction l with
  | nil => simp [insertSorted]
  | cons y ys ih =>
      rcases List.pairwise_cons.mp hl with ⟨hy, hys⟩
      by_cases h : le x y = true
      · rw [show insertSorted le x (y :: ys) = x :: y :: ys from by simp [insertSorted, h]]
        refine List.pairwise_cons.mpr ⟨?_, hl⟩
        intro z hz
        rcases List.mem_cons.mp hz with hz | hz
        · exact hz ▸ h
        · exact htrans x y z h (hy z hz)
      · have hyx : le y x = true := (htotal x y).resolve_left h
        rw [show insertSorted le x (y :: ys) = y :: insertSorted le x ys from by
          simp [insertSorted, h]]
        refine List.pairwise_cons.mpr ⟨?_, ih hys⟩
        intro z hz
        rcases List.mem_cons.mp ((insertSorted_perm le x ys).mem_iff.mp hz) with hz | hz
        · exact hz ▸ hyx
        · exact hy z hz

theorem stableSort_pairwise (le : α → α → Bool)
    (htrans : ∀ a b c, le a b = true → le b c = true → le a c = true)
    (htotal : ∀ a b, le a b = true ∨ le b a = true)
    (l : List α) :
    (stableSort le l).Pairwise (fun a b => le a b = true) := by
  induction l with
  | nil => simp [stableSort]
  | cons a t ih => exact insertSorted_pairwise le htrans htotal a (stableSort le t) ih

theorem stableSort_of_pairwise (le : α → α → Bool) (l : List α)
    (hl : l.Pairwise (fun a b => le a b = true)) :
    stableSort le l = l := by
  induction l with
  | nil => rfl
  | cons a t ih =>
      rcases List.pairwise_cons.mp hl with ⟨ha, ht⟩
      have h1 : stableSort le (a :: t) = insertSorted le a (stableSort le t) := rfl
      rw [h1, ih ht]
      cases t with
      | nil => rfl
      | cons b bs => simp [insertSorted, ha b (by simp)]

theorem eq_of_perm_of_pairwise (le : α → α → Bool) :
    ∀ (l₁ l₂ : List α), l₁.Perm l₂ →
      l₁.Pairwise (fun a b => le a b = true) →
      l₂.Pairwise (fun a b => le a b = true) →
      (∀ x ∈ l₁, ∀ y ∈ l₁, le x y = true → le y x = true → x = y) →
      l₁ = l₂
  | [], l₂, hp, _, _, _ => by simpa using hp.nil_eq
  | a :: t₁, [], hp, _, _, _ => by simpa using hp.symm.nil_eq
  | a :: t₁, b :: t₂, hp, hs₁, hs₂, hanti => by
      have hab : a = b := by
        by_contra hne
        have ha2 : a ∈ b :: t₂ := hp.mem_iff.mp (by simp)
        have hb1 : b ∈ a :: t₁ := hp.symm.mem_iff.mp (by simp)
        have hat2 : a ∈ t₂ := by
          rcases List.mem_cons.mp ha2 with h | h
          · exact absurd h hne
          · exact h
        have hbt1 : b ∈ t₁ := by
          rcases List.mem_cons.mp hb1 with h | h
          · exact absurd h.symm hne
          · exact h
        have h1 : le a b = true := (List.pairwise_cons.mp hs₁).1 b hbt1
        have h2 : le b a = true := (List.pairwise_cons.mp hs₂).1 a hat2
        exact hne (hanti a (by simp) b (by simp [hbt1]) h1 h2)
      subst hab
      have hp2 : t₁.Perm t₂ := hp.cons_inv
      have := eq_of_perm_of_pairwise le t₁ t₂ hp2
        (List.pairwise_cons.mp hs₁).2 (List.pairwise_cons.mp hs₂).2
        (fun x hx y hy => hanti x (by simp [hx]) y (by simp [hy]))
      rw [this]

theorem stableSort_congr_perm (le : α → α → Bool)
    (htrans : ∀ a b c, le a b = true → le b c = true → le a c = true)
    (htotal : ∀ a b, le a b = true ∨ le b a = true)
    (l₁ l₂ : List α) (hp : l₁.Perm l₂)
    (hanti : ∀ x ∈ l₁, ∀ y ∈ l₁, le x y = true → le y x = true → x = y) :
    stableSort le l₁ = stableSort le l₂ := by
  refine eq_of_perm_of_pairwise le _ _
    (((stableSort_perm le l₁).trans hp).trans (stableSort_perm le l₂).symm)
    (stableSort_pairwise le htrans htotal l₁)
    (stableSort_pairwise le htrans htotal l₂) ?_
  intro x hx y hy
  exact hanti x ((mem_stableSort le l₁ x).mp hx) y ((mem_stableSort le l₁ y).mp hy)

/-! ## C5 -/

theorem shiftMask3 : ∀ r < 256, (r >>> 3) <<< 3 = r &&& 0xF8 := by
  intro r hr
  have h : r >>> 3 <<< 3 = r / 8 * 8 := by
    simp [Nat.shiftLeft_eq, Nat.shiftRight_eq_div_pow]
  rw [h]
  interval_cases r <;> rfl

theorem shiftMask2 : ∀ g < 256, (g >>> 2) <<< 2 = g &&& 0xFC := by
  intro g hg
  have h : g >>> 2 <<< 2 = g / 4 * 4 := by
    simp [Nat.shiftLeft_eq, Nat.shiftRight_eq_div_pow]
  rw [h]
  interval_cases g <;> rfl

theorem quantize565_quantize565 (p : Pixel) :
    quantize565 (quantize565 p) = quantize565 p := by
  simp only [quantize565, Nat.shiftLeft_eq, Nat.shiftRight_eq_div_pow, Pixel.mk.injEq]
  norm_num

/-- C5: the 16-bit quantization step is idempotent on whole buffers, and on
8-bit channel samples it is exactly the spec's bit masks: red and blue keep
their top 5 bits (`value &&& 0xF8`), green its top 6 (`value &&& 0xFC`),
alpha untouched. -/
theorem quantize565_idempotent_and_masks (img : PILImage) :
    quantize565Image (quantize565Image img) = quantize565Image img ∧
    ∀ p ∈ img.pix, p.r < 256 → p.g < 256 → p.b < 256 →
      quantize565 p =
        { r := p.r &&& 0xF8, g := p.g &&& 0xFC, b := p.b &&& 0xF8, a := p.a } := by
  constructor
  · show ({ img with pix := (img.pix.map quantize565).map quantize565 } : PILImage) = _
    rw [List.map_map]
    exact congrArg (fun l => { img with pix := l })
      (List.map_congr_left (fun p _ => quantize565_quantize565 p))
  · intro p _ hr hg hb
    simp only [quantize565, shiftMask3 p.r hr, shiftMask2 p.g hg, shiftMask3 p.b hb]

theorem quantize565_idempotent_and_masks_witness :
    quantize565Image (quantize565Image
        { mode := PILMode.RGB, width := 1, height := 1
        , pix := [{ r := 10, g := 20, b := 30, a := 40 }], palette := [] }) =
      quantize565Image
        { mode := PILMode.RGB, width := 1, height := 1
        , pix := [{ r := 10, g := 20, b := 30, a := 40 }], palette := [] } ∧
    quantize565 { r := 10, g := 20, b := 30, a := 40 } =
      { r := 10 &&& 0xF8, g := 20 &&& 0xFC, b := 30 &&& 0xF8, a := 40 } :=
  ⟨(quantize565_idempotent_and_masks _).1,
   (quantize565_idempotent_and_masks
      { mode := PILMode.RGB, width := 1, height := 1
      , pix := [{ r := 10, g := 20, b := 30, a := 40 }], palette := [] }).2
      { r := 10, g := 20, b := 30, a := 40 } (by decide) (by decide) (by decide)
      (by decide)⟩

/-! ## C3 -/

/-- C3: the degrade pipeline fails (Pillow's resize `ValueError`, the spec's
InvalidRequest, caught at the boundary) exactly when a target dimension is
non-positive, producing no image; with positive targets it always produces
one, for every kernel, quantizer, request and input. -/
theorem process_invalid_request_iff
    (bil : PILImage → Nat → Nat → List Pixel) (cAd : Nat → PILImage → PILImage)
    (req : ProcessingRequest) (img : PILImage) :
    (process_image bil cAd req img).isOk = true ↔
      0 < req.resize_width ∧ 0 < req.resize_height := by
  by_cases h : req.resize_width ≤ 0 ∨ req.resize_height ≤ 0
  · simp [process_image, pilResize, if_pos h, Except.isOk, Except.toBool]
    omega
  · simp [process_image, pilResize, if_neg h, Except.isOk, Except.toBool]
    omega

/-! ## C7 -/

/-- C7: a missing scan root yields the empty item list via the existence
guard, and a root that exists but is not a directory yields it because
`os.walk` enumerates nothing there; neither path raises. -/
theorem scan_missing_or_nondirectory_root_empty (walk : List WalkEntry) :
    load_images_checked false walk = [] ∧ load_images_checked true [] = [] :=
  ⟨rfl, rfl⟩

/-! ## C10 -/

/-- C10: when loading the selected image fails, every derived display field
is reset to its empty default while the selected-image path keeps the
requested value, whatever the prior state was. -/
theorem select_image_failure_clears_metadata_keeps_path
    (st : SelState) (image_path : String) :
    select_image st image_path none =
      { selected_image := image_path
      , selected_image_data := ""
      , image_format := ""
      , image_resolution := ""
      , image_file_size := ""
      , image_width := 0
      , image_height := 0 } :=
  rfl

/-! ## C4 -/

/-- C4: toggling a member removes exactly it and its strict descendants
(paths beginning with it plus the separator); toggling a non-member appends
exactly it; a double toggle restores the prior members up to descendant
expansions, which collapsing clears and re-expanding does not restore —
in particular the spec's four-step scenario ends with "a/b" gone. -/
theorem toggle_folder_membership_and_double_toggle (s : List String) (p : String) :
    (p ∈ s → ∀ x, x ∈ toggle_folder s p ↔
      x ∈ s ∧ ¬(x = p ∨ (startswith x (p ++ "/")) = true)) ∧
    (p ∉ s → toggle_folder s p = s ++ [p]) ∧
    (p ∈ s → toggle_folder (toggle_folder s p) p =
      s.filter (fun f => f != p && !(startswith f (p ++ "/"))) ++ [p]) ∧
    (p ∉ s → ∀ x, x ∈ toggle_folder (toggle_folder s p) p ↔
      x ∈ s ∧ ¬(startswith x (p ++ "/")) = true) ∧
    toggle_folder (toggle_folder (toggle_folder (toggle_folder [] "a") "a/b") "a") "a"
      = ["a"] ∧
    "a/b" ∉ toggle_folder (toggle_folder (toggle_folder (toggle_folder [] "a") "a/b") "a") "a" := by
  have hmem : ∀ (hp : p ∈ s) (x : String), x ∈ toggle_folder s p ↔
      x ∈ s ∧ ¬(x = p ∨ (startswith x (p ++ "/")) = true) := by
    intro hp x
    rw [toggle_folder, if_pos hp, List.mem_filter]
    simp [not_or]
  have hadd : ∀ (_ : p ∉ s), toggle_folder s p = s ++ [p] := by
    intro hp
    rw [toggle_folder, if_neg hp]
  refine ⟨hmem, hadd, ?_, ?_, by decide, by decide⟩
  · intro hp
    have hnot : p ∉ toggle_folder s p := by
      intro hc
      exact ((hmem hp p).mp hc).2 (Or.inl rfl)
    have h1 : toggle_folder s p =
        s.filter (fun f => f != p && !(startswith f (p ++ "/"))) := by
      rw [toggle_folder, if_pos hp]
    rw [toggle_folder, if_neg hnot, h1]
  · intro hp x
    rw [hadd hp, toggle_folder, if_pos (by simp), List.mem_filter]
    constructor
    · intro ⟨h1, h2⟩
      simp only [Bool.and_eq_true, bne_iff_ne, Bool.not_eq_true'] at h2
      rcases List.mem_append.mp h1 with h1 | h1
      · exact ⟨h1, by simp [h2.2]⟩
      · simp at h1
        exact absurd h1 h2.1
    · intro ⟨h1, h2⟩
      refine ⟨List.mem_append.mpr (Or.inl h1), ?_⟩
      simp only [Bool.and_eq_true, bne_iff_ne, Bool.not_eq_true]
      exact ⟨fun he => hp (he ▸ h1), by simpa using h2⟩

theorem toggle_folder_witness :
    ("a" ∈ (["a", "a/b", "b"] : List String) ∧
      ("a/b" ∈ toggle_folder ["a", "a/b", "b"] "a" ↔
        "a/b" ∈ (["a", "a/b", "b"] : List String) ∧
          ¬("a/b" = "a" ∨ (startswith "a/b" ("a" ++ "/")) = true))) ∧
    ("c" ∉ (["a"] : List String) ∧ toggle_folder ["a"] "c" = ["a"] ++ ["c"]) :=
  ⟨⟨by decide,
    (toggle_folder_membership_and_double_toggle ["a", "a/b", "b"] "a").1 (by decide) "a/b"⟩,
   ⟨by decide,
    (toggle_folder_membership_and_double_toggle ["a"] "c").2.1 (by decide)⟩⟩

/-! ## C2 -/

/-- C2 counterexample: with expansion state {"a/b"} alone, a node whose
direct parent is "a/b" but whose grandparent "a" is not expanded is visible
to the code, while the claim says it must not be (the claimed every-ancestor
condition indeed fails here). -/
theorem visibility_grandparent_counterexample :
    is_item_visible [["a", "b"]]
        { name := "c.png", path := ["a", "b", "c.png"], is_folder := false
        , level := 2, parent := ["a", "b"] } = true ∧
    (["a"] ∈ ([["a", "b"]] : List (List String))) = False ∧
    spec_visible [["a", "b"]] ["a", "b"] = false := by
  refine ⟨by decide, by simp, by decide⟩

/-- C2 amended: the code makes an item visible exactly when its parent path
is empty or its direct parent is in the expansion state; on expansion states
closed under ancestors (every state reachable by toggling visible folders is
such) this coincides with the spec's every-ancestor condition. -/
theorem visible_iff_direct_parent_expanded
    (expanded_folders : List (List String))
    (hclosed : AncestorClosed expanded_folders) (item : FileItem) :
    is_item_visible expanded_folders item = spec_visible expanded_folders item.parent := by
  rcases hpar : item.parent with _ | ⟨a, rest⟩
  · simp [is_item_visible, spec_visible, ancestorFolders, hpar]
  · have hne : item.parent ≠ [] := by rw [hpar]; simp
    have hself : item.parent ∈ ancestorFolders item.parent := by
      rw [ancestorFolders]
      refine List.mem_map.mpr ⟨item.parent.length - 1, ?_, ?_⟩
      · refine List.mem_range.mpr ?_
        rw [hpar]
        simp
      · rw [Nat.sub_add_cancel (by rw [hpar]; simp), List.take_length]
    rw [← hpar]
    rcases hbool : is_item_visible expanded_folders item with hv | hv
    · rcases hs : spec_visible expanded_folders item.parent with hs2 | hs2
      · rfl
      · exfalso
        have hmemp : item.parent ∈ expanded_folders := by
          have := (List.all_eq_true.mp hs) item.parent hself
          simpa using this
        have : is_item_visible expanded_folders item = true := by
          rw [is_item_visible]
          simp [hmemp]
        rw [hbool] at this
        cases this
    · rcases hs : spec_visible expanded_folders item.parent with hs2 | hs2
      · exfalso
        have hmemp : item.parent ∈ expanded_folders := by
          rw [is_item_visible] at hbool
          rcases Bool.or_eq_true_iff.mp hbool with h | h
          · exact absurd (by simpa using h) hne
          · simpa using h
        have : spec_visible expanded_folders item.parent = true := by
          rw [spec_visible]
          refine List.all_eq_true.mpr ?_
          intro q hq
          simpa using hclosed item.parent hmemp q hq
        rw [hs] at this
        cases this
      · rfl

theorem visible_iff_direct_parent_expanded_witness :
    AncestorClosed [["a"], ["a", "b"]] ∧
    is_item_visible [["a"], ["a", "b"]]
        { name := "c.png", path := ["a", "b", "c.png"], is_folder := false
        , level := 2, parent := ["a", "b"] } =
      spec_visible [["a"], ["a", "b"]] ["a", "b"] :=
  ⟨by unfold AncestorClosed ancestorFolders; decide,
   visible_iff_direct_parent_expanded [["a"], ["a", "b"]]
    (by unfold AncestorClosed ancestorFolders; decide)
    { name := "c.png", path := ["a", "b", "c.png"], is_folder := false
    , level := 2, parent := ["a", "b"] }⟩

/-! ## C1 and C6 -/

theorem convertRGB_mode (img : PILImage) : (convertRGB img).mode = PILMode.RGB := by
  rcases img with ⟨mode, w, h, pix, pal⟩
  cases mode <;> rfl

theorem rasterOf_convertRGB_of_mode_p (img : PILImage) (h : img.mode = PILMode.P) :
    rasterOf (convertRGB img) = rasterOf img := by
  rcases img with ⟨mode, w, h2, pix, pal⟩
  simp only at h
  subst h
  show (pix.map _).map _ = pix.map _
  rw [List.map_map]
  rfl

/-- C1 (the code slip): in the 8-bit and 4-bit branches the dithering flag is
never passed to the palette-mapping step; it only selects whether the palette
image is expanded back to RGB, which preserves every decoded pixel. Hence for
every input, kernel and palette quantizer the decoded output rasters with the
flag on and off are identical — the claimed flag-dependent dithering does not
exist in the code. -/
theorem dithering_flag_has_no_pixel_effect
    (bil : PILImage → Nat → Nat → List Pixel) (cAd : Nat → PILImage → PILImage)
    (hP : ∀ n im, (cAd n im).mode = PILMode.P)
    (req : ProcessingRequest) (img : PILImage)
    (hdepth : req.color_depth = 8 ∨ req.color_depth = 4) :
    Except.map rasterOf (process_image bil cAd { req with dithering := true } img) =
      Except.map rasterOf (process_image bil cAd { req with dithering := false } img) := by
  unfold process_image
  cases hres : pilResize (kernelOf bil req.resize_mode) req.resize_width
      req.resize_height (normalizeMode img) with
  | error e => simp [hres]
  | ok resized =>
      rcases hdepth with h8 | h4
      · simp only [hres, h8, Except.map, Except.ok.injEq]
        norm_num
        exact rasterOf_convertRGB_of_mode_p _ (hP 256 resized)
      · simp only [hres, h4, Except.map, Except.ok.injEq]
        norm_num
        exact rasterOf_convertRGB_of_mode_p _ (hP 16 resized)

theorem dithering_flag_has_no_pixel_effect_witness :
    ((8 : Int) = 8 ∨ (8 : Int) = 4) ∧
    Except.map rasterOf (process_image (fun i _ _ => i.pix)
        (fun _ im => { mode := PILMode.P, width := im.width, height := im.height
                     , pix := im.pix, palette := [{ r := 5, g := 6, b := 7, a := 8 }] })
        { resize_width := 1, resize_height := 1, resize_mode := "nearest"
        , color_depth := 8, dithering := true }
        { mode := PILMode.RGB, width := 1, height := 1
        , pix := [{ r := 9, g := 9, b := 9, a := 9 }], palette := [] }) =
      Except.map rasterOf (process_image (fun i _ _ => i.pix)
        (fun _ im => { mode := PILMode.P, width := im.width, height := im.height
                     , pix := im.pix, palette := [{ r := 5, g := 6, b := 7, a := 8 }] })
        { resize_width := 1, resize_height := 1, resize_mode := "nearest"
        , color_depth := 8, dithering := false }
        { mode := PILMode.RGB, width := 1, height := 1
        , pix := [{ r := 9, g := 9, b := 9, a := 9 }], palette := [] }) :=
  ⟨Or.inl rfl,
   dithering_flag_has_no_pixel_effect (fun i _ _ => i.pix)
     (fun _ im => { mode := PILMode.P, width := im.width, height := im.height
                  , pix := im.pix, palette := [{ r := 5, g := 6, b := 7, a := 8 }] })
     (fun _ _ => rfl)
     { resize_width := 1, resize_height := 1, resize_mode := "nearest"
     , color_depth := 8, dithering := true }
     { mode := PILMode.RGB, width := 1, height := 1
     , pix := [{ r := 9, g := 9, b := 9, a := 9 }], palette := [] }
     (Or.inl rfl)⟩

/-- C6 counterexample: a 1-by-1 RGBA image with alpha 77, processed in
16-bit mode with a 1-by-1 nearest resize, comes out as an RGB image whose
single pixel carries the constant pad alpha 255 — the source alpha plane is
discarded by the branch's convert("RGB"), not preserved as claimed. -/
theorem process_16bit_alpha_counterexample :
    process_image (fun i _ _ => i.pix) (fun _ im => im)
        { resize_width := 1, resize_height := 1, resize_mode := "nearest"
        , color_depth := 16, dithering := false }
        { mode := PILMode.RGBA, width := 1, height := 1
        , pix := [{ r := 10, g := 20, b := 30, a := 77 }], palette := [] } =
      Except.ok { mode := PILMode.RGB, width := 1, height := 1
                , pix := [{ r := 8, g := 20, b := 24, a := 255 }], palette := [] } ∧
    PILMode.RGB ≠ PILMode.RGBA ∧ (77 : Nat) ≠ 255 :=
  ⟨rfl, by decide, by decide⟩

/-- C6 amended: 16-bit processing converts the resampled image to RGB first,
discarding any alpha channel, and then truncates the remaining channels;
every successful 16-bit output is an RGB image. -/
theorem process_16bit_converts_to_rgb
    (bil : PILImage → Nat → Nat → List Pixel) (cAd : Nat → PILImage → PILImage)
    (req : ProcessingRequest) (img : PILImage) (h16 : req.color_depth = 16) :
    process_image bil cAd req img =
      Except.map (fun rs => quantize565Image (convertRGB rs))
        (pilResize (kernelOf bil req.resize_mode) req.resize_width
          req.resize_height (normalizeMode img)) ∧
    ∀ out, process_image bil cAd req img = Except.ok out → out.mode = PILMode.RGB := by
  have hmain : process_image bil cAd req img =
      Except.map (fun rs => quantize565Image (convertRGB rs))
        (pilResize (kernelOf bil req.resize_mode) req.resize_width
          req.resize_height (normalizeMode img)) := by
    unfold process_image
    cases hres : pilResize (kernelOf bil req.resize_mode) req.resize_width
        req.resize_height (normalizeMode img) with
    | error e => simp [hres, Except.map]
    | ok resized => simp [hres, h16, Except.map]
  refine ⟨hmain, ?_⟩
  intro out hout
  rw [hmain] at hout
  cases hres : pilResize (kernelOf bil req.resize_mode) req.resize_width
      req.resize_height (normalizeMode img) with
  | error e => rw [hres] at hout; cases hout
  | ok resized =>
      rw [hres] at hout
      have : quantize565Image (convertRGB resized) = out := by
        simpa [Except.map] using hout
      rw [← this]
      show (convertRGB resized).mode = PILMode.RGB
      exact convertRGB_mode resized

theorem process_16bit_converts_to_rgb_witness :
    ((16 : Int) = 16) ∧
    process_image (fun i _ _ => i.pix) (fun _ im => im)
        { resize_width := 2, resize_height := 2, resize_mode := "nearest"
        , color_depth := 16, dithering := true }
        { mode := PILMode.RGBA, width := 1, height := 1
        , pix := [{ r := 250, g := 250, b := 250, a := 3 }], palette := [] } =
      Except.map (fun rs => quantize565Image (convertRGB rs))
        (pilResize (kernelOf (fun i _ _ => i.pix) "nearest") 2 2
          (normalizeMode
            { mode := PILMode.RGBA, width := 1, height := 1
            , pix := [{ r := 250, g := 250, b := 250, a := 3 }], palette := [] })) :=
  ⟨rfl,
   (process_16bit_converts_to_rgb (fun i _ _ => i.pix) (fun _ im => im)
     { resize_width := 2, resize_height := 2, resize_mode := "nearest"
     , color_depth := 16, dithering := true }
     { mode := PILMode.RGBA, width := 1, height := 1
     , pix := [{ r := 250, g := 250, b := 250, a := 3 }], palette := [] } rfl).1⟩

/-! ## Folder-dict invariants shared by the scan theorems -/

theorem mem_imageFilesOf {c : FileItem} {root : List String} {files : List String} :
    c ∈ imageFilesOf root files ↔
      ∃ f, (f ∈ files ∧ isImageFile f = true) ∧ mkFileItem root f = c := by
  simp [imageFilesOf]

theorem keysOf_extendChildren (fc : FolderDict) (key : List String)
    (imgs : List FileItem) : keysOf (extendChildren fc key imgs) = keysOf fc := by
  unfold keysOf extendChildren
  rw [List.map_map]
  refine List.map_congr_left ?_
  intro kv _
  by_cases h : kv.1 = key <;> simp [h]

theorem any_key_iff (fc : FolderDict) (k : List String) :
    fc.any (fun kv => kv.1 == k) = true ↔ k ∈ keysOf fc := by
  rw [List.any_eq_true]
  constructor
  · intro ⟨kv, hkv, hbeq⟩
    have he : kv.1 = k := by simpa using hbeq
    exact he ▸ List.mem_map.mpr ⟨kv, hkv, rfl⟩
  · intro h
    rcases List.mem_map.mp h with ⟨kv, hkv, he⟩
    exact ⟨kv, hkv, by simp [he]⟩

theorem getLastD_take (parts : List String) :
    ∀ i, i < parts.length → (parts.take (i + 1)).getLastD "" = parts.getD i "" := by
  induction parts with
  | nil =>
      intro i h
      simp at h
  | cons a t ih =>
      intro i h
      cases i with
      | zero => simp
      | succ j =>
          have hj : j < t.length := by simpa using h
          have h2 : (a :: t).take (j + 2) = a :: t.take (j + 1) := rfl
          have h4 : (a :: t).getD (j + 1) "" = t.getD j "" := by simp
          rw [h2, h4, ← ih j hj]
          have h3 : t.take (j + 1) ≠ [] := by
            intro hc
            have : (t.take (j + 1)).length = j + 1 := by
              rw [List.length_take]
              omega
            rw [hc] at this
            simp at this
          rcases List.exists_cons_of_ne_nil h3 with ⟨c, cs, hcs⟩
          rw [hcs]
          simp [List.getLastD_cons]

theorem mkFolderItem_eq_canon (parts : List String) (i : Nat) (hi : i < parts.length) :
    mkFolderItem parts i = canonFolderItem (parts.take (i + 1)) := by
  have hlen : (parts.take (i + 1)).length = i + 1 := by
    rw [List.length_take]
    omega
  have h1 : (parts.take (i + 1)).getLastD "" = parts.getD i "" :=
    getLastD_take parts i hi
  have h2 : (parts.take (i + 1)).dropLast = parts.take i := by
    rw [List.dropLast_eq_take, hlen]
    simp only [Nat.add_sub_cancel, List.take_take]
    have hmin : min i (i + 1) = i := by omega
    rw [hmin]
  unfold mkFolderItem canonFolderItem
  rw [hlen, h2, ← h1]
  norm_num

theorem take_ne_nil (parts : List String) (i : Nat) (hi : i < parts.length) :
    parts.take (i + 1) ≠ [] := by
  intro hc
  have : (parts.take (i + 1)).length = i + 1 := by
    rw [List.length_take]
    omega
  rw [hc] at this
  simp at this

theorem goodDict_insertFolder (parts : List String) (i : Nat) (fc : FolderDict)
    (hi : i < parts.length) (h : GoodDict fc) : GoodDict (insertFolder parts fc i) := by
  unfold insertFolder
  by_cases hmem : fc.any (fun kv => kv.1 == parts.take (i + 1)) = true
  · rw [if_pos hmem]
    exact h
  · rw [if_neg hmem]
    obtain ⟨h1, h2, h3⟩ := h
    refine ⟨?_, ?_, ?_⟩
    · intro kv hkv
      rcases List.mem_append.mp hkv with hkv | hkv
      · exact h1 kv hkv
      · rcases List.mem_singleton.mp hkv with rfl
        exact ⟨take_ne_nil parts i hi, mkFolderItem_eq_canon parts i hi⟩
    · intro kv hkv
      rcases List.mem_append.mp hkv with hkv | hkv
      · exact h2 kv hkv
      · rcases List.mem_singleton.mp hkv with rfl
        intro c hc
        simp at hc
    · show (keysOf (fc ++ _)).Nodup
      unfold keysOf
      rw [List.map_append]
      simp only [List.map_cons, List.map_nil]
      rw [List.nodup_append]
      refine ⟨h3, by simp, ?_⟩
      intro k hk hk2
      simp at hk2
      rw [hk2] at hk
      exact hmem ((any_key_iff fc _).mpr hk)

theorem goodDict_foldRange (parts : List String) :
    ∀ (idxs : List Nat), (∀ i ∈ idxs, i < parts.length) → ∀ fc, GoodDict fc →
      GoodDict (idxs.foldl (insertFolder parts) fc)
  | [], _, fc, h => h
  | j :: js, hall, fc, h =>
      goodDict_foldRange parts js (fun i hi => hall i (by simp [hi])) _
        (goodDict_insertFolder parts j fc (hall j (by simp)) h)

theorem goodDict_addFolders (parts : List String) (fc : FolderDict) (h : GoodDict fc) :
    GoodDict (addFolders parts fc) :=
  goodDict_foldRange parts (List.range parts.length)
    (fun _ hi => List.mem_range.mp hi) fc h

theorem goodDict_extendChildren (fc : FolderDict) (key : List String)
    (files : List String) (h : GoodDict fc) :
    GoodDict (extendChildren fc key (imageFilesOf key files)) := by
  obtain ⟨h1, h2, h3⟩ := h
  refine ⟨?_, ?_, ?_⟩
  · intro kv hkv
    rcases List.mem_map.mp hkv with ⟨kv0, hkv0, he⟩
    by_cases hk : kv0.1 = key
    · rw [← he]
      simp only [hk, if_pos]
      exact hk ▸ h1 kv0 hkv0
    · rw [← he]
      simp only [hk, if_neg, not_false_iff]
      exact h1 kv0 hkv0
  · intro kv hkv
    rcases List.mem_map.mp hkv with ⟨kv0, hkv0, he⟩
    by_cases hk : kv0.1 = key
    · rw [← he]
      simp only [hk, if_pos]
      intro c hc
      rcases List.mem_append.mp hc with hc | hc
      · exact hk ▸ h2 kv0 hkv0 c hc
      · rcases mem_imageFilesOf.mp hc with ⟨f, hf, rfl⟩
        exact ⟨rfl, rfl⟩
    · rw [← he]
      simp only [hk, if_neg, not_false_iff]
      exact h2 kv0 hkv0
  · rw [keysOf_extendChildren]
    exact h3

theorem goodDict_processFC (fc : FolderDict) (e : WalkEntry) (h : GoodDict fc) :
    GoodDict (processFC fc e) := by
  unfold processFC
  by_cases hr : e.root = []
  · rw [if_pos hr]
    exact h
  · rw [if_neg hr]
    by_cases hany :
        (addFolders e.root fc).any (fun kv => kv.1 == e.root) = true
    · rw [if_pos hany]
      exact goodDict_extendChildren _ _ _ (goodDict_addFolders _ _ h)
    · rw [if_neg hany]
      exact goodDict_addFolders _ _ h

theorem goodDict_foldFC (walk : List WalkEntry) :
    ∀ fc0, GoodDict fc0 → GoodDict (walk.foldl processFC fc0) := by
  induction walk with
  | nil => exact fun fc0 h => h
  | cons e es ih => exact fun fc0 h => ih _ (goodDict_processFC fc0 e h)

theorem goodDict_nil : GoodDict [] :=
  ⟨by simp, by simp, by simp [keysOf]⟩

theorem processEntry_fst (st : FolderDict × List FileItem) (e : WalkEntry) :
    (processEntry st e).1 = processFC st.1 e := by
  unfold processEntry processFC
  by_cases hr : e.root = []
  · simp [hr]
  · by_cases hany :
        (addFolders e.root st.1).any (fun kv => kv.1 == e.root) = true <;>
      simp [hr, hany]

theorem fold_fst (walk : List WalkEntry) :
    ∀ (st : FolderDict × List FileItem),
      (walk.foldl processEntry st).1 = walk.foldl processFC st.1 := by
  induction walk with
  | nil => exact fun st => rfl
  | cons e es ih =>
      intro st
      show (es.foldl processEntry (processEntry st e)).1 = _
      rw [ih (processEntry st e), processEntry_fst]
      rfl

theorem processEntry_snd (st : FolderDict × List FileItem) (e : WalkEntry) :
    (processEntry st e).2 =
      st.2 ++ (if e.root = [] then sortByName (imageFilesOf [] e.files) else []) := by
  unfold processEntry
  by_cases hr : e.root = []
  · simp [hr]
  · by_cases hany :
        (addFolders e.root st.1).any (fun kv => kv.1 == e.root) = true <;>
      simp [hr, hany]

theorem fold_snd (walk : List WalkEntry) :
    ∀ (st : FolderDict × List FileItem),
      (walk.foldl processEntry st).2 =
        st.2 ++ walk.flatMap
          (fun e => if e.root = [] then sortByName (imageFilesOf [] e.files) else []) := by
  induction walk with
  | nil => intro st; simp
  | cons e es ih =>
      intro st
      show (es.foldl processEntry (processEntry st e)).2 = _
      rw [ih (processEntry st e), processEntry_snd]
      simp [List.append_assoc]

theorem goodDict_sortDict (fc : FolderDict) (h : GoodDict fc) :
    GoodDict (sortDict fc) := by
  obtain ⟨h1, h2, h3⟩ := h
  have hperm : (sortDict fc).Perm fc := stableSort_perm keyLe fc
  refine ⟨fun kv hkv => h1 kv (hperm.mem_iff.mp hkv),
    fun kv hkv => h2 kv (hperm.mem_iff.mp hkv), ?_⟩
  have : (keysOf (sortDict fc)).Perm (keysOf fc) := hperm.map Prod.fst
  exact this.nodup_iff.mpr h3

/-! ## Parents precede children (towards C8) -/

theorem parentCovered_nil (ctx : List FileItem) : ParentCovered ctx [] := by
  intro a x b h hx
  exfalso
  cases a <;> simp at h

theorem parentCovered_append {ctx l₁ l₂ : List FileItem}
    (h₁ : ParentCovered ctx l₁) (h₂ : ParentCovered (ctx ++ l₁) l₂) :
    ParentCovered ctx (l₁ ++ l₂) := by
  intro a x b hO hx
  rcases List.append_eq_append_iff.mp hO with ⟨w, ha, hl2⟩ | ⟨w, hl1, hxb⟩
  · rcases h₂ w x b hl2 hx with ⟨y, hy, hy2⟩
    refine ⟨y, ?_, hy2⟩
    rw [ha, ← List.append_assoc]
    exact hy
  · cases w with
    | nil =>
        simp only [List.append_nil] at hl1
        simp only [List.nil_append] at hxb
        rcases h₂ [] x b (by rw [← hxb]; rfl) hx with ⟨y, hy, hy2⟩
        refine ⟨y, ?_, hy2⟩
        rw [← hl1]
        simpa using hy
    | cons c w2 =>
        have hx2 : x = c ∧ b = w2 ++ l₂ := by
          have := hxb
          simp only [List.cons_append] at this
          exact ⟨by injection this, by injection this⟩
        rcases hx2 with ⟨rfl, rfl⟩
        exact h₁ a x w2 (by rw [hl1]) hx

theorem parentCovered_single {ctx : List FileItem} {x : FileItem}
    (hhead : x.parent ≠ [] → ∃ y ∈ ctx, y.is_folder = true ∧ y.path = x.parent) :
    ParentCovered ctx [x] := by
  intro a z b hO hz
  cases a with
  | nil =>
      have hz2 : z = x ∧ b = [] := by
        simp only [List.nil_append] at hO
        exact ⟨by injection hO with h1 h2; exact h1.symm,
          by injection hO with h1 h2; exact h2.symm⟩
      rcases hz2 with ⟨rfl, rfl⟩
      rcases hhead hz with ⟨y, hy, hy2⟩
      exact ⟨y, by simp [hy], hy2⟩
  | cons c a2 =>
      exfalso
      simp only [List.cons_append] at hO
      have : ([] : List FileItem) = a2 ++ z :: b := by injection hO
      cases a2 <;> simp at this

theorem parentCovered_cons {ctx : List FileItem} {x : FileItem} {rest : List FileItem}
    (hhead : x.parent ≠ [] → ∃ y ∈ ctx, y.is_folder = true ∧ y.path = x.parent)
    (hrest : ParentCovered (ctx ++ [x]) rest) :
    ParentCovered ctx (x :: rest) :=
  parentCovered_append (parentCovered_single hhead) hrest

theorem parentCovered_of_all {ctx O : List FileItem}
    (h : ∀ x ∈ O, x.parent ≠ [] →
      ∃ y ∈ ctx, y.is_folder = true ∧ y.path = x.parent) :
    ParentCovered ctx O := by
  intro a x b hO hx
  have hxm : x ∈ O := by rw [hO]; simp
  rcases h x hxm hx with ⟨y, hy, hy2⟩
  exact ⟨y, List.mem_append.mpr (Or.inl hy), hy2⟩

theorem parentCovered_flatMap {α : Type} {ctx : List FileItem} {l : List α}
    {f : α → List FileItem}
    (h : ∀ u ∈ l, ∀ ctx₂, (∀ y ∈ ctx, y ∈ ctx₂) → ParentCovered ctx₂ (f u)) :
    ParentCovered ctx (l.flatMap f) := by
  induction l generalizing ctx with
  | nil => exact parentCovered_nil ctx
  | cons u us ih =>
      rw [List.flatMap_cons]
      refine parentCovered_append (h u (by simp) ctx (fun y hy => hy)) ?_
      refine ih ?_
      intro u2 hu2 ctx₂ hsub
      refine h u2 (by simp [hu2]) ctx₂ ?_
      intro y hy
      exact hsub y (List.mem_append.mpr (Or.inl hy))

theorem emit_parentCovered (fcS : FolderDict) (hgood : GoodDict fcS) :
    ∀ (fuel : Nat) (fp : List String) (fd : FolderData),
      fd.item.path = fp → fd.item.is_folder = true →
      (∀ c ∈ fd.children, c.parent = fp) →
      ∀ ctx : List FileItem,
      (fd.item.parent ≠ [] →
        ∃ y ∈ ctx, y.is_folder = true ∧ y.path = fd.item.parent) →
      ParentCovered ctx (addFolderAndChildren fcS fuel fp fd) := by
  intro fuel
  induction fuel with
  | zero =>
      intro fp fd _ _ _ ctx _
      exact parentCovered_nil ctx
  | succ n ih =>
      intro fp fd hpath hfold hch ctx hhead
      show ParentCovered ctx (fd.item :: _)
      refine parentCovered_cons hhead (parentCovered_append ?_ ?_)
      · refine parentCovered_of_all ?_
        intro c hc _
        refine ⟨fd.item, by simp, hfold, ?_⟩
        rw [hpath, ← hch c ((mem_stableSort nameLe fd.children c).mp hc)]
      · refine parentCovered_flatMap ?_
        intro kv hkv ctx₂ hsub
        have hkvS : kv ∈ fcS := List.mem_of_mem_filter hkv
        have hcond : kv.2.item.parent = fp := by
          have := List.of_mem_filter hkv
          simpa using this
        obtain ⟨hg1, hg2, _⟩ := hgood
        have hcanon := (hg1 kv hkvS).2
        refine ih kv.1 kv.2 (by rw [hcanon]; rfl) (by rw [hcanon]; rfl)
          (fun c hcmem => (hg2 kv hkvS c hcmem).2) ctx₂ ?_
        intro _
        refine ⟨fd.item, ?_, hfold, ?_⟩
        · exact hsub fd.item (by simp)
        · rw [hpath, hcond]

theorem load_images_parentCovered (walk : List WalkEntry) :
    ParentCovered [] (load_images walk) := by
  have hgood0 : GoodDict ((walk.foldl processEntry ([], [])).1) := by
    rw [fold_fst]
    exact goodDict_foldFC walk [] goodDict_nil
  have hgood : GoodDict (sortDict (walk.foldl processEntry ([], [])).1) :=
    goodDict_sortDict _ hgood0
  show ParentCovered [] (_ ++ topEmit _ _)
  refine parentCovered_append ?_ ?_
  · refine parentCovered_of_all ?_
    intro x hx hxp
    exfalso
    rw [fold_snd walk ([], [])] at hx
    simp only [List.nil_append] at hx
    rcases List.mem_flatMap.mp hx with ⟨e, he, hxe⟩
    by_cases hr : e.root = []
    · rw [if_pos hr] at hxe
      rcases mem_imageFilesOf.mp ((mem_stableSort nameLe _ x).mp hxe) with ⟨f, _, rfl⟩
      exact hxp rfl
    · rw [if_neg hr] at hxe
      simp at hxe
  · unfold topEmit
    refine parentCovered_flatMap ?_
    intro kv hkv ctx₂ _
    by_cases hpar : kv.2.item.parent = []
    · rw [if_pos hpar]
      have hcanon := (hgood.1 kv hkv).2
      refine emit_parentCovered _ hgood _ kv.1 kv.2 (by rw [hcanon]; rfl)
        (by rw [hcanon]; rfl) (fun c hc => (hgood.2.1 kv hkv c hc).2) ctx₂ ?_
      intro hne
      exact absurd hpar hne
    · rw [if_neg hpar]
      exact parentCovered_nil ctx₂

/-! ## At most one Folder node per path (towards C8) -/

theorem isFolderWithPath_iff (q : List String) (y : FileItem) :
    isFolderWithPath q y = true ↔ y.is_folder = true ∧ y.path = q := by
  simp [isFolderWithPath]

theorem countP_flatMap_eq_sum {α β : Type} (p : β → Bool) (f : α → List β) :
    ∀ l : List α, ((l.flatMap f).countP p) = (l.map (fun u => (f u).countP p)).sum := by
  intro l
  induction l with
  | nil => simp
  | cons u us ih =>
      rw [List.flatMap_cons, List.countP_append, ih]
      simp

theorem sum_le_one_of_unique_key (t : List String) :
    ∀ (kvs : List (List String × FolderData))
      (g : (List String × FolderData) → Nat),
      (keysOf kvs).Nodup →
      (∀ kv ∈ kvs, g kv ≤ 1 ∧ (0 < g kv → kv.1 = t)) →
      (kvs.map g).sum ≤ 1 := by
  intro kvs g
  induction kvs with
  | nil => simp
  | cons kv rest ih =>
      intro hnd hall
      have hnd2 : (keysOf rest).Nodup ∧ kv.1 ∉ keysOf rest := by
        have : keysOf (kv :: rest) = kv.1 :: keysOf rest := rfl
        rw [this] at hnd
        exact ⟨(List.nodup_cons.mp hnd).2, (List.nodup_cons.mp hnd).1⟩
      simp only [List.map_cons, List.sum_cons]
      by_cases h0 : g kv = 0
      · rw [h0, Nat.zero_add]
        exact ih hnd2.1 (fun kv2 hkv2 => hall kv2 (by simp [hkv2]))
      · have hpos : 0 < g kv := Nat.pos_of_ne_zero h0
        have hkey : kv.1 = t := (hall kv (by simp)).2 hpos
        have hg1 : g kv ≤ 1 := (hall kv (by simp)).1
        have hrest : (rest.map g).sum = 0 := by
          rw [List.sum_eq_zero]
          intro n hn
          rcases List.mem_map.mp hn with ⟨kv2, hkv2, rfl⟩
          by_contra hne
          have hpos2 : 0 < g kv2 := Nat.pos_of_ne_zero hne
          have hkey2 : kv2.1 = t := (hall kv2 (by simp [hkv2])).2 hpos2
          exact hnd2.2 (by
            rw [hkey, ← hkey2]
            exact List.mem_map.mpr ⟨kv2, hkv2, rfl⟩)
        omega

theorem key_length_of_parent (fcS : FolderDict) (hgood : GoodDict fcS)
    (kv : List String × FolderData) (hkv : kv ∈ fcS) :
    kv.1.length = kv.2.item.parent.length + 1 := by
  obtain ⟨hg1, _, _⟩ := hgood
  rcases hg1 kv hkv with ⟨hne, hcanon⟩
  rw [hcanon]
  show kv.1.length = kv.1.dropLast.length + 1
  rw [List.length_dropLast]
  rcases List.exists_cons_of_ne_nil hne with ⟨c, cs, hcs⟩
  rw [hcs]
  simp

theorem emit_folder_count (fcS : FolderDict) (hgood : GoodDict fcS)
    (q : List String) :
    ∀ (fuel : Nat) (fp : List String) (fd : FolderData),
      fd.item.path = fp → fd.item.is_folder = true →
      (∀ c ∈ fd.children, c.is_folder = false) →
      (addFolderAndChildren fcS fuel fp fd).countP (isFolderWithPath q) ≤ 1 ∧
      (0 < (addFolderAndChildren fcS fuel fp fd).countP (isFolderWithPath q) →
        fp <+: q) := by
  intro fuel
  induction fuel with
  | zero =>
      intro fp fd _ _ _
      constructor
      · show List.countP _ [] ≤ 1
        simp
      · show 0 < List.countP _ [] → _
        simp
  | succ n ih =>
      intro fp fd hpath hfold hch
      have hO : addFolderAndChildren fcS (n + 1) fp fd =
          fd.item :: (sortByName fd.children ++
            (fcS.filter (fun kv => kv.2.item.parent == fp)).flatMap
              (fun kv => addFolderAndChildren fcS n kv.1 kv.2)) := rfl
      rw [hO]
      rw [List.countP_cons, List.countP_append]
      have hC : (sortByName fd.children).countP (isFolderWithPath q) = 0 := by
        rw [List.countP_eq_zero]
        intro c hc
        have := hch c ((mem_stableSort nameLe fd.children c).mp hc)
        simp [isFolderWithPath, this]
      rw [hC]
      set kvs := fcS.filter (fun kv => kv.2.item.parent == fp) with hkvs
      have hkvsub : ∀ kv ∈ kvs, kv ∈ fcS ∧ kv.2.item.parent = fp := by
        intro kv hkv
        refine ⟨List.mem_of_mem_filter hkv, ?_⟩
        have := List.of_mem_filter hkv
        simpa using this
      have hkvlen : ∀ kv ∈ kvs, kv.1.length = fp.length + 1 := by
        intro kv hkv
        rw [key_length_of_parent fcS hgood kv (hkvsub kv hkv).1, (hkvsub kv hkv).2]
      have hkvpre : ∀ kv ∈ kvs, fp <+: kv.1 := by
        intro kv hkv
        obtain ⟨hg1, _, _⟩ := hgood
        have hcanon := (hg1 kv (hkvsub kv hkv).1).2
        have : kv.2.item.parent = kv.1.dropLast := by rw [hcanon]; rfl
        rw [← (hkvsub kv hkv).2, this]
        exact List.dropLast_prefix kv.1
      have hsub : ∀ kv ∈ kvs,
          (addFolderAndChildren fcS n kv.1 kv.2).countP (isFolderWithPath q) ≤ 1 ∧
          (0 < (addFolderAndChildren fcS n kv.1 kv.2).countP (isFolderWithPath q) →
            kv.1 <+: q) := by
        intro kv hkv
        obtain ⟨hg1, hg2, _⟩ := hgood
        have hcanon := (hg1 kv (hkvsub kv hkv).1).2
        exact ih kv.1 kv.2 (by rw [hcanon]; rfl) (by rw [hcanon]; rfl)
          (fun c hc => (hg2 kv (hkvsub kv hkv).1 c hc).1)
      have hkvnodup : (keysOf kvs).Nodup := by
        obtain ⟨_, _, hg3⟩ := hgood
        have hsubl : kvs.Sublist fcS := List.filter_sublist fcS
        exact (hsubl.map Prod.fst).nodup hg3
      have hflat := countP_flatMap_eq_sum (isFolderWithPath q)
        (fun kv => addFolderAndChildren fcS n kv.1 kv.2) kvs
      by_cases hq : q = fp
      · have hhead : isFolderWithPath q fd.item = true := by
          rw [isFolderWithPath_iff]
          exact ⟨hfold, by rw [hpath, hq]⟩
        have hR : (kvs.flatMap
            (fun kv => addFolderAndChildren fcS n kv.1 kv.2)).countP
              (isFolderWithPath q) = 0 := by
          rw [hflat, List.sum_eq_zero]
          intro m hm
          rcases List.mem_map.mp hm with ⟨kv, hkv, rfl⟩
          by_contra hne
          have hpos : 0 < (addFolderAndChildren fcS n kv.1 kv.2).countP
              (isFolderWithPath q) := Nat.pos_of_ne_zero hne
          have hpre : kv.1 <+: q := (hsub kv hkv).2 hpos
          have := hpre.length_le
          rw [hkvlen kv hkv, hq] at this
          omega
        rw [hR, hhead]
        exact ⟨by simp, fun _ => hq ▸ List.prefix_refl q⟩
      · have hhead : isFolderWithPath q fd.item = false := by
          rw [← Bool.not_eq_true, isFolderWithPath_iff]
          intro ⟨_, hp⟩
          exact hq (by rw [← hp, hpath])
        have hR : (kvs.flatMap
            (fun kv => addFolderAndChildren fcS n kv.1 kv.2)).countP
              (isFolderWithPath q) ≤ 1 := by
          rw [hflat]
          refine sum_le_one_of_unique_key (q.take (fp.length + 1)) kvs _ hkvnodup ?_
          intro kv hkv
          refine ⟨(hsub kv hkv).1, ?_⟩
          intro hpos
          have hpre : kv.1 <+: q := (hsub kv hkv).2 hpos
          have := List.prefix_iff_eq_take.mp hpre
          rw [this, hkvlen kv hkv]
        rw [hhead]
        constructor
        · simpa using hR
        · intro hpos
          simp only [if_neg, Bool.false_eq_true, not_false_iff, Nat.add_zero] at hpos
          have hpos2 : 0 < (kvs.flatMap
              (fun kv => addFolderAndChildren fcS n kv.1 kv.2)).countP
                (isFolderWithPath q) := by
            omega
          rw [hflat] at hpos2
          have : ∃ kv ∈ kvs, 0 < (addFolderAndChildren fcS n kv.1 kv.2).countP
              (isFolderWithPath q) := by
            by_contra hc
            push_neg at hc
            have : (kvs.map (fun kv => (addFolderAndChildren fcS n kv.1 kv.2).countP
                (isFolderWithPath q))).sum = 0 := by
              rw [List.sum_eq_zero]
              intro m hm
              rcases List.mem_map.mp hm with ⟨kv, hkv, rfl⟩
              have := hc kv hkv
              omega
            omega
          rcases this with ⟨kv, hkv, hpos3⟩
          exact (hkvpre kv hkv).trans ((hsub kv hkv).2 hpos3)

theorem load_images_folder_count (walk : List WalkEntry) (q : List String) :
    (load_images walk).countP (isFolderWithPath q) ≤ 1 := by
  have hgood0 : GoodDict ((walk.foldl processEntry ([], [])).1) := by
    rw [fold_fst]
    exact goodDict_foldFC walk [] goodDict_nil
  have hgood : GoodDict (sortDict (walk.foldl processEntry ([], [])).1) :=
    goodDict_sortDict _ hgood0
  show ((walk.foldl processEntry ([], [])).2 ++ topEmit _ _).countP _ ≤ 1
  rw [List.countP_append]
  have hsnd : ((walk.foldl processEntry ([], [])).2).countP (isFolderWithPath q) = 0 := by
    rw [List.countP_eq_zero]
    intro x hx
    rw [fold_snd walk ([], [])] at hx
    simp only [List.nil_append] at hx
    rcases List.mem_flatMap.mp hx with ⟨e, he, hxe⟩
    by_cases hr : e.root = []
    · rw [if_pos hr] at hxe
      rcases mem_imageFilesOf.mp ((mem_stableSort nameLe _ x).mp hxe) with ⟨f, _, rfl⟩
      simp [isFolderWithPath, mkFileItem]
    · rw [if_neg hr] at hxe
      simp at hxe
  rw [hsnd, Nat.zero_add]
  unfold topEmit
  rw [countP_flatMap_eq_sum]
  refine sum_le_one_of_unique_key (q.take 1) _ _ hgood.2.2 ?_
  intro kv hkv
  by_cases hpar : kv.2.item.parent = []
  · rw [if_pos hpar]
    have hcanon := (hgood.1 kv hkv).2
    have hcount := emit_folder_count _ hgood q
      ((walk.foldl processEntry ([], [])).1.length) kv.1 kv.2 (by rw [hcanon]; rfl)
      (by rw [hcanon]; rfl) (fun c hc => (hgood.2.1 kv hkv c hc).1)
    refine ⟨hcount.1, ?_⟩
    intro hpos
    have hpre : kv.1 <+: q := hcount.2 hpos
    have hlen1 : kv.1.length = 1 := by
      have := key_length_of_parent _ hgood kv hkv
      rw [hpar] at this
      simpa using this
    have := List.prefix_iff_eq_take.mp hpre
    rw [this, hlen1]
  · rw [if_neg hpar]
    simp

/-- C8: in every node sequence the scan produces, every item whose parent
path is nonempty is preceded by exactly one Folder node carrying that parent
path, and no Folder node with that path follows it — parents always precede
children, with no forward references and no duplicate folder. -/
theorem scan_parents_precede (walk : List WalkEntry) (pre post : List FileItem)
    (x : FileItem) (hsplit : load_images walk = pre ++ x :: post)
    (hx : x.parent ≠ ([] : List String)) :
    pre.countP (isFolderWithPath x.parent) = 1 ∧
    (x :: post).countP (isFolderWithPath x.parent) = 0 := by
  have hPC := load_images_parentCovered walk
  rcases hPC pre x post hsplit hx with ⟨y, hy, hy2⟩
  rw [List.nil_append] at hy
  have hpos : 0 < pre.countP (isFolderWithPath x.parent) := by
    rw [List.countP_pos_iff]
    exact ⟨y, hy, by rw [isFolderWithPath_iff]; exact ⟨hy2.1, hy2.2⟩⟩
  have htot := load_images_folder_count walk x.parent
  rw [hsplit, List.countP_append] at htot
  omega

theorem scan_parents_precede_witness :
    (load_images [{ root := [], files := ["a.png"] }, { root := ["sub"], files := ["b.jpg"] }] =
      [{ name := "a.png", path := ["a.png"], is_folder := false, level := 0, parent := [] },
       { name := "sub", path := ["sub"], is_folder := true, level := 0, parent := [] }] ++
      { name := "b.jpg", path := ["sub", "b.jpg"], is_folder := false, level := 1
      , parent := ["sub"] } :: [] ∧
      ({ name := "b.jpg", path := ["sub", "b.jpg"], is_folder := false, level := 1
       , parent := ["sub"] } : FileItem).parent ≠ ([] : List String)) ∧
    ([{ name := "a.png", path := ["a.png"], is_folder := false, level := 0, parent := [] },
      { name := "sub", path := ["sub"], is_folder := true, level := 0, parent := [] }].countP
        (isFolderWithPath ({ name := "b.jpg", path := ["sub", "b.jpg"], is_folder := false
                           , level := 1, parent := ["sub"] } : FileItem).parent) = 1 ∧
      ({ name := "b.jpg", path := ["sub", "b.jpg"], is_folder := false, level := 1
       , parent := ["sub"] } :: ([] : List FileItem)).countP
        (isFolderWithPath ({ name := "b.jpg", path := ["sub", "b.jpg"], is_folder := false
                           , level := 1, parent := ["sub"] } : FileItem).parent) = 0) :=
  ⟨⟨by decide, by decide⟩,
   scan_parents_precede
     [{ root := [], files := ["a.png"] }, { root := ["sub"], files := ["b.jpg"] }]
     [{ name := "a.png", path := ["a.png"], is_folder := false, level := 0, parent := [] },
      { name := "sub", path := ["sub"], is_folder := true, level := 0, parent := [] }]
     []
     { name := "b.jpg", path := ["sub", "b.jpg"], is_folder := false, level := 1
     , parent := ["sub"] }
     (by decide) (by decide)⟩

/-! ## Determinism of the scan (towards C9) -/

theorem pathLe_trans : ∀ (a b c : List String),
    pathLe a b = true → pathLe b c = true → pathLe a c = true
  | [], _, _, _, _ => rfl
  | a :: as, [], _, h, _ => by simp [pathLe] at h
  | _ :: _, _ :: _, [], _, h => by simp [pathLe] at h
  | a :: as, b :: bs, c :: cs, h1, h2 => by
      simp only [pathLe] at h1 h2 ⊢
      by_cases hab : a < b
      · by_cases hbc : b < c
        · simp [lt_trans hab hbc]
        · by_cases hbc2 : b = c
          · simp [hbc2 ▸ hab]
          · simp [hbc, hbc2] at h2
      · by_cases hab2 : a = b
        · subst hab2
          simp only [lt_irrefl, if_false, if_pos rfl, ite_true, ite_false] at h1
          by_cases hac : a < c
          · simp [hac]
          · by_cases hac2 : a = c
            · subst hac2
              simp only [lt_irrefl, if_false, ite_false, if_pos rfl, ite_true] at h2 ⊢
              exact pathLe_trans as bs cs (by simpa using h1) (by simpa using h2)
            · simp [hac, hac2] at h2
        · simp [hab, hab2] at h1

theorem pathLe_total : ∀ (a b : List String),
    pathLe a b = true ∨ pathLe b a = true
  | [], _ => Or.inl rfl
  | _ :: _, [] => Or.inr rfl
  | a :: as, b :: bs => by
      simp only [pathLe]
      rcases lt_trichotomy a b with h | h | h
      · left
        simp [h]
      · subst h
        rcases pathLe_total as bs with h2 | h2
        · left
          simp [lt_irrefl, h2]
        · right
          simp [lt_irrefl, h2]
      · right
        simp [h]

theorem pathLe_antisymm : ∀ (a b : List String),
    pathLe a b = true → pathLe b a = true → a = b
  | [], [], _, _ => rfl
  | [], _ :: _, _, h => by simp [pathLe] at h
  | _ :: _, [], h, _ => by simp [pathLe] at h
  | a :: as, b :: bs, h1, h2 => by
      simp only [pathLe] at h1 h2
      rcases lt_trichotomy a b with h | h | h
      · exfalso
        simp [asymm h, (ne_of_lt h).symm] at h2
      · subst h
        simp only [lt_irrefl, if_false, ite_false, if_pos rfl, ite_true] at h1 h2
        rw [pathLe_antisymm as bs (by simpa using h1) (by simpa using h2)]
      · exfalso
        simp [asymm h, ne_of_gt h] at h1

theorem nameLe_trans (a b c : FileItem) (h1 : nameLe a b = true)
    (h2 : nameLe b c = true) : nameLe a c = true := by
  simp only [nameLe, decide_eq_true_eq] at h1 h2 ⊢
  exact le_trans h1 h2

theorem nameLe_total (a b : FileItem) : nameLe a b = true ∨ nameLe b a = true := by
  simp only [nameLe, decide_eq_true_eq]
  exact le_total a.name b.name

theorem keyLe_trans (a b c : List String × FolderData) (h1 : keyLe a b = true)
    (h2 : keyLe b c = true) : keyLe a c = true :=
  pathLe_trans a.1 b.1 c.1 h1 h2

theorem keyLe_total (a b : List String × FolderData) :
    keyLe a b = true ∨ keyLe b a = true :=
  pathLe_total a.1 b.1

theorem imageFilesOf_perm (k : List String) {f₁ f₂ : List String}
    (h : f₁.Perm f₂) : (imageFilesOf k f₁).Perm (imageFilesOf k f₂) :=
  (h.filter isImageFile).map (mkFileItem k)

theorem sortByName_imageFiles_eq (k : List String) {f₁ f₂ : List String}
    (h : f₁.Perm f₂) :
    sortByName (imageFilesOf k f₁) = sortByName (imageFilesOf k f₂) := by
  refine stableSort_congr_perm nameLe nameLe_trans nameLe_total _ _
    (imageFilesOf_perm k h) ?_
  intro x hx y hy hxy hyx
  rcases mem_imageFilesOf.mp hx with ⟨fx, _, rfl⟩
  rcases mem_imageFilesOf.mp hy with ⟨fy, _, rfl⟩
  have hname : (mkFileItem k fx).name = (mkFileItem k fy).name := by
    simp only [nameLe, decide_eq_true_eq] at hxy hyx
    exact le_antisymm hxy hyx
  have hff : fx = fy := hname
  rw [hff]

theorem filter_root_length (w : List WalkEntry) (k : List String) :
    (w.filter (fun e => e.root = k)).length =
      (w.map WalkEntry.root).countP (fun r => r = k) := by
  rw [← List.countP_eq_length_filter, List.countP_map]
  rfl

theorem countP_eq_le_one_of_nodup {α : Type} [DecidableEq α] (k : α) :
    ∀ (l : List α), l.Nodup → l.countP (fun r => r = k) ≤ 1 := by
  intro l
  induction l with
  | nil => simp
  | cons a t ih =>
      intro hnd
      rcases List.nodup_cons.mp hnd with ⟨ha, ht⟩
      rw [List.countP_cons]
      by_cases h : a = k
      · subst h
        have h0 : t.countP (fun r => r = a) = 0 := by
          rw [List.countP_eq_zero]
          intro r hr
          simp only [decide_eq_true_eq]
          intro hc
          exact ha (hc ▸ hr)
        simp [h0]
      · have hd : (decide (a = k)) = false := by simp [h]
        rw [hd]
        simpa using ih ht

theorem countP_root_le_one (w : List WalkEntry) (k : List String)
    (hnd : (w.map WalkEntry.root).Nodup) :
    (w.map WalkEntry.root).countP (fun r => r = k) ≤ 1 :=
  countP_eq_le_one_of_nodup k (w.map WalkEntry.root) hnd

theorem filesForRoot_perm (w₁ w₂ : List WalkEntry)
    (hnd : (w₁.map WalkEntry.root).Nodup) (heq : EquivWalk w₁ w₂)
    (k : List String) : (filesForRoot w₁ k).Perm (filesForRoot w₂ k) := by
  have hcnt : (w₁.map WalkEntry.root).countP (fun r => r = k) =
      (w₂.map WalkEntry.root).countP (fun r => r = k) := heq.1.countP_eq _
  have hle := countP_root_le_one w₁ k hnd
  have hlen1 := filter_root_length w₁ k
  have hlen2 := filter_root_length w₂ k
  unfold filesForRoot
  rcases Nat.lt_or_ge ((w₁.map WalkEntry.root).countP (fun r => r = k)) 1 with h0 | h1
  · have he1 : (w₁.filter (fun e => e.root = k)) = [] := by
      rw [← List.length_eq_zero]
      omega
    have he2 : (w₂.filter (fun e => e.root = k)) = [] := by
      rw [← List.length_eq_zero]
      omega
    rw [he1, he2]
  · have hone : (w₁.map WalkEntry.root).countP (fun r => r = k) = 1 := by omega
    rcases List.length_eq_one.mp (by omega :
        (w₁.filter (fun e => e.root = k)).length = 1) with ⟨e₁, he1⟩
    rcases List.length_eq_one.mp (by omega :
        (w₂.filter (fun e => e.root = k)).length = 1) with ⟨e₂, he2⟩
    have hm1 : e₁ ∈ w₁ ∧ e₁.root = k := by
      have : e₁ ∈ w₁.filter (fun e => e.root = k) := by simp [he1]
      exact ⟨List.mem_of_mem_filter this, by simpa using List.of_mem_filter this⟩
    have hm2 : e₂ ∈ w₂ ∧ e₂.root = k := by
      have : e₂ ∈ w₂.filter (fun e => e.root = k) := by simp [he2]
      exact ⟨List.mem_of_mem_filter this, by simpa using List.of_mem_filter this⟩
    rw [he1, he2]
    simp only [List.flatMap_cons, List.flatMap_nil, List.append_nil]
    exact heq.2 e₁ hm1.1 e₂ hm2.1 (by rw [hm1.2, hm2.2])

theorem imageFilesOf_append (k : List String) (f₁ f₂ : List String) :
    imageFilesOf k (f₁ ++ f₂) = imageFilesOf k f₁ ++ imageFilesOf k f₂ := by
  unfold imageFilesOf
  rw [List.filter_append, List.map_append]

theorem flatMap_if_eq_filter {γ : Type} (k : List String) (g : WalkEntry → List γ) :
    ∀ (w : List WalkEntry),
      w.flatMap (fun e => if e.root = k then g e else []) =
        (w.filter (fun e => e.root = k)).flatMap g := by
  intro w
  induction w with
  | nil => rfl
  | cons e es ih =>
      rw [List.flatMap_cons]
      by_cases hr : e.root = k
      · rw [if_pos hr, List.filter_cons_of_pos (by simpa using hr), List.flatMap_cons, ih]
      · rw [if_neg hr, List.filter_cons_of_neg (by simpa using hr), List.nil_append, ih]

theorem flatMapIf_eq_imageFiles (k : List String) (w : List WalkEntry) :
    w.flatMap (fun e => if e.root = k then imageFilesOf k e.files else []) =
      imageFilesOf k (filesForRoot w k) := by
  rw [flatMap_if_eq_filter]
  unfold filesForRoot
  induction (w.filter (fun e => e.root = k)) with
  | nil => rfl
  | cons e es ih =>
      rw [List.flatMap_cons, List.flatMap_cons, imageFilesOf_append, ih]

theorem flatMap_sorted_rootfiles (w : List WalkEntry)
    (hnd : (w.map WalkEntry.root).Nodup) :
    w.flatMap (fun e =>
        if e.root = [] then sortByName (imageFilesOf [] e.files) else []) =
      sortByName (imageFilesOf [] (filesForRoot w [])) := by
  rw [flatMap_if_eq_filter]
  have hle := countP_root_le_one w [] hnd
  have hlen := filter_root_length w []
  unfold filesForRoot
  rcases Nat.lt_or_ge ((w.map WalkEntry.root).countP (fun r => r = [])) 1 with h0 | h1
  · have he : (w.filter (fun e => e.root = [])) = [] := by
      rw [← List.length_eq_zero]
      omega
    rw [he]
    rfl
  · rcases List.length_eq_one.mp (by omega :
        (w.filter (fun e => e.root = [])).length = 1) with ⟨e, he⟩
    rw [he]
    simp only [List.flatMap_cons, List.flatMap_nil, List.append_nil]

theorem mem_keysOf_insertFolder (parts : List String) (fc : FolderDict) (i : Nat)
    (k : List String) :
    k ∈ keysOf (insertFolder parts fc i) ↔
      k ∈ keysOf fc ∨ k = parts.take (i + 1) := by
  unfold insertFolder
  by_cases h : fc.any (fun kv => kv.1 == parts.take (i + 1)) = true
  · rw [if_pos h]
    constructor
    · exact Or.inl
    · intro hk
      rcases hk with hk | hk
      · exact hk
      · exact hk ▸ (any_key_iff fc _).mp h
  · rw [if_neg h]
    unfold keysOf
    rw [List.map_append, List.mem_append]
    constructor
    · rintro (h1 | h1)
      · exact Or.inl h1
      · rcases List.mem_map.mp h1 with ⟨kv, hkv, he⟩
        rcases List.mem_singleton.mp hkv with rfl
        exact Or.inr he.symm
    · rintro (h1 | rfl)
      · exact Or.inl h1
      · exact Or.inr (List.mem_map.mpr ⟨_, List.mem_singleton.mpr rfl, rfl⟩)

theorem mem_keysOf_foldRange (parts : List String) :
    ∀ (idxs : List Nat) (fc : FolderDict) (k : List String),
      k ∈ keysOf (idxs.foldl (insertFolder parts) fc) ↔
        k ∈ keysOf fc ∨ ∃ i ∈ idxs, k = parts.take (i + 1) := by
  intro idxs
  induction idxs with
  | nil => intro fc k; simp
  | cons j js ih =>
      intro fc k
      show k ∈ keysOf (js.foldl (insertFolder parts) (insertFolder parts fc j)) ↔ _
      rw [ih, mem_keysOf_insertFolder]
      simp only [List.mem_cons]
      constructor
      · rintro ((h | h) | ⟨i, hi, h⟩)
        · exact Or.inl h
        · exact Or.inr ⟨j, Or.inl rfl, h⟩
        · exact Or.inr ⟨i, Or.inr hi, h⟩
      · rintro (h | ⟨i, (rfl | hi), h⟩)
        · exact Or.inl (Or.inl h)
        · exact Or.inl (Or.inr h)
        · exact Or.inr ⟨i, hi, h⟩

theorem mem_keysOf_addFolders (parts : List String) (fc : FolderDict) (k : List String) :
    k ∈ keysOf (addFolders parts fc) ↔
      k ∈ keysOf fc ∨ ∃ i, i < parts.length ∧ k = parts.take (i + 1) := by
  unfold addFolders
  rw [mem_keysOf_foldRange]
  simp [List.mem_range]

theorem mem_keysOf_processFC (fc : FolderDict) (e : WalkEntry) (k : List String) :
    k ∈ keysOf (processFC fc e) ↔
      k ∈ keysOf fc ∨
        (e.root ≠ [] ∧ ∃ i, i < e.root.length ∧ k = e.root.take (i + 1)) := by
  unfold processFC
  by_cases hr : e.root = []
  · rw [if_pos hr]
    simp [hr]
  · rw [if_neg hr]
    by_cases hany :
        (addFolders e.root fc).any (fun kv => kv.1 == e.root) = true
    · rw [if_pos hany, keysOf_extendChildren, mem_keysOf_addFolders]
      simp [hr]
    · rw [if_neg hany, mem_keysOf_addFolders]
      simp [hr]

theorem mem_keysOf_foldFC :
    ∀ (w : List WalkEntry) (fc0 : FolderDict) (k : List String),
      k ∈ keysOf (w.foldl processFC fc0) ↔
        k ∈ keysOf fc0 ∨
          ∃ e ∈ w, e.root ≠ [] ∧ ∃ i, i < e.root.length ∧ k = e.root.take (i + 1) := by
  intro w
  induction w with
  | nil => intro fc0 k; simp
  | cons e es ih =>
      intro fc0 k
      show k ∈ keysOf (es.foldl processFC (processFC fc0 e)) ↔ _
      rw [ih, mem_keysOf_processFC]
      simp only [List.mem_cons]
      constructor
      · rintro ((h | h) | ⟨u, hu, h⟩)
        · exact Or.inl h
        · exact Or.inr ⟨e, Or.inl rfl, h⟩
        · exact Or.inr ⟨u, Or.inr hu, h⟩
      · rintro (h | ⟨u, (rfl | hu), h⟩)
        · exact Or.inl (Or.inl h)
        · exact Or.inl (Or.inr h)
        · exact Or.inr ⟨u, hu, h⟩

theorem childrenOfKey_cons_pos (kv : List String × FolderData) (rest : FolderDict)
    (k : List String) (h : kv.1 = k) :
    childrenOfKey (kv :: rest) k = kv.2.children := by
  unfold childrenOfKey
  rw [List.find?_cons_of_pos _ (by simp [h])]
  rfl

theorem childrenOfKey_cons_neg (kv : List String × FolderData) (rest : FolderDict)
    (k : List String) (h : kv.1 ≠ k) :
    childrenOfKey (kv :: rest) k = childrenOfKey rest k := by
  unfold childrenOfKey
  rw [List.find?_cons_of_neg _ (by simp [h])]

theorem childrenOfKey_insertFolder (parts : List String) (fc : FolderDict)
    (i : Nat) (k : List String) :
    childrenOfKey (insertFolder parts fc i) k = childrenOfKey fc k := by
  unfold insertFolder
  by_cases h : fc.any (fun kv => kv.1 == parts.take (i + 1)) = true
  · rw [if_pos h]
  · rw [if_neg h]
    unfold childrenOfKey
    rw [List.find?_append]
    cases hf : fc.find? (fun kv => kv.1 == k) with
    | some kv2 => rfl
    | none =>
        by_cases hk : parts.take (i + 1) = k
        · simp [List.find?_cons, hk]
        · simp [List.find?_cons, hk]

theorem childrenOfKey_foldRange (parts : List String) :
    ∀ (idxs : List Nat) (fc : FolderDict) (k : List String),
      childrenOfKey (idxs.foldl (insertFolder parts) fc) k = childrenOfKey fc k := by
  intro idxs
  induction idxs with
  | nil => intro fc k; rfl
  | cons j js ih =>
      intro fc k
      show childrenOfKey (js.foldl (insertFolder parts) (insertFolder parts fc j)) k = _
      rw [ih, childrenOfKey_insertFolder]

theorem childrenOfKey_addFolders (parts : List String) (fc : FolderDict)
    (k : List String) :
    childrenOfKey (addFolders parts fc) k = childrenOfKey fc k :=
  childrenOfKey_foldRange parts (List.range parts.length) fc k

theorem childrenOfKey_extendChildren_ne (r : List String) (imgs : List FileItem)
    (k : List String) (hne : k ≠ r) :
    ∀ (fc : FolderDict),
      childrenOfKey (extendChildren fc r imgs) k = childrenOfKey fc k := by
  intro fc
  induction fc with
  | nil => rfl
  | cons kv rest ih =>
      show childrenOfKey
        ((if kv.1 = r then (kv.1, { kv.2 with children := kv.2.children ++ imgs })
          else kv) :: extendChildren rest r imgs) k = _
      by_cases hk : kv.1 = k
      · have hkr : kv.1 ≠ r := fun hc => hne (hk ▸ hc)
        rw [if_neg hkr, childrenOfKey_cons_pos kv (extendChildren rest r imgs) k hk,
          childrenOfKey_cons_pos kv rest k hk]
      · by_cases hkr : kv.1 = r
        · rw [if_pos hkr,
            childrenOfKey_cons_neg
              (kv.1, { item := kv.2.item, children := kv.2.children ++ imgs })
              (extendChildren rest r imgs) k hk,
            childrenOfKey_cons_neg kv rest k hk]
          exact ih
        · rw [if_neg hkr,
            childrenOfKey_cons_neg kv (extendChildren rest r imgs) k hk,
            childrenOfKey_cons_neg kv rest k hk]
          exact ih

theorem childrenOfKey_extendChildren_self (imgs : List FileItem) :
    ∀ (fc : FolderDict) (r : List String), r ∈ keysOf fc →
      childrenOfKey (extendChildren fc r imgs) r = childrenOfKey fc r ++ imgs := by
  intro fc
  induction fc with
  | nil =>
      intro r hr
      simp [keysOf] at hr
  | cons kv rest ih =>
      intro r hr
      show childrenOfKey
        ((if kv.1 = r then (kv.1, { kv.2 with children := kv.2.children ++ imgs })
          else kv) :: extendChildren rest r imgs) r = _
      by_cases hk : kv.1 = r
      · rw [if_pos hk,
          childrenOfKey_cons_pos
            (kv.1, { item := kv.2.item, children := kv.2.children ++ imgs })
            (extendChildren rest r imgs) r hk,
          childrenOfKey_cons_pos kv rest r hk]
      · rw [if_neg hk,
          childrenOfKey_cons_neg kv (extendChildren rest r imgs) r hk,
          childrenOfKey_cons_neg kv rest r hk]
        have hr2 : r ∈ keysOf rest := by
          rcases List.mem_cons.mp hr with h | h
          · exact absurd h.symm hk
          · exact h
        exact ih r hr2

theorem root_mem_keys_addFolders (parts : List String) (fc : FolderDict)
    (hne : parts ≠ []) : parts ∈ keysOf (addFolders parts fc) := by
  rw [mem_keysOf_addFolders]
  right
  have hpos : 0 < parts.length := List.length_pos.mpr hne
  refine ⟨parts.length - 1, by omega, ?_⟩
  have h1 : parts.length - 1 + 1 = parts.length := by omega
  rw [h1, List.take_length]

theorem childrenOfKey_processFC (fc : FolderDict) (e : WalkEntry)
    (k : List String) (hk : k ≠ []) :
    childrenOfKey (processFC fc e) k =
      childrenOfKey fc k ++
        (if e.root = k then imageFilesOf k e.files else []) := by
  unfold processFC
  by_cases hr : e.root = []
  · rw [if_pos hr]
    have hne : e.root ≠ k := by
      rw [hr]
      exact fun hc => hk hc.symm
    rw [if_neg hne, List.append_nil]
  · rw [if_neg hr]
    have hmem : e.root ∈ keysOf (addFolders e.root fc) :=
      root_mem_keys_addFolders e.root fc hr
    have hany : (addFolders e.root fc).any (fun kv => kv.1 == e.root) = true :=
      (any_key_iff _ _).mpr hmem
    rw [if_pos hany]
    by_cases hkr : e.root = k
    · subst hkr
      rw [if_pos rfl, childrenOfKey_extendChildren_self _ _ _ hmem,
        childrenOfKey_addFolders]
    · rw [if_neg hkr, List.append_nil,
        childrenOfKey_extendChildren_ne _ _ _ (fun hc => hkr hc.symm),
        childrenOfKey_addFolders]

theorem childrenOfKey_foldFC (k : List String) (hk : k ≠ []) :
    ∀ (w : List WalkEntry) (fc0 : FolderDict),
      childrenOfKey (w.foldl processFC fc0) k =
        childrenOfKey fc0 k ++
          w.flatMap (fun e => if e.root = k then imageFilesOf k e.files else []) := by
  intro w
  induction w with
  | nil => intro fc0; simp
  | cons e es ih =>
      intro fc0
      show childrenOfKey (es.foldl processFC (processFC fc0 e)) k = _
      rw [ih, childrenOfKey_processFC fc0 e k hk]
      rw [List.flatMap_cons, List.append_assoc]

theorem find?_eq_of_mem_of_nodup :
    ∀ (fc : FolderDict), (keysOf fc).Nodup →
      ∀ kv ∈ fc, fc.find? (fun x => x.1 == kv.1) = some kv := by
  intro fc
  induction fc with
  | nil =>
      intro _ kv h
      simp at h
  | cons a rest ih =>
      intro hnd kv hkv
      have hnd2 : (keysOf (a :: rest)) = a.1 :: keysOf rest := rfl
      rw [hnd2] at hnd
      rcases List.mem_cons.mp hkv with rfl | hm
      · rw [List.find?_cons_of_pos _ (by simp)]
      · by_cases hpk : (a.1 == kv.1) = true
        · exfalso
          have : kv.1 ∈ keysOf rest := List.mem_map.mpr ⟨kv, hm, rfl⟩
          have ha1 : a.1 = kv.1 := by simpa using hpk
          exact (List.nodup_cons.mp hnd).1 (ha1 ▸ this)
        · rw [List.find?_cons_of_neg _ (by simpa using hpk)]
          exact ih (List.nodup_cons.mp hnd).2 kv hm

theorem entry_children (fc : FolderDict) (hnd : (keysOf fc).Nodup)
    (kv : List String × FolderData) (hkv : kv ∈ fc) :
    kv.2.children = childrenOfKey fc kv.1 := by
  unfold childrenOfKey
  rw [find?_eq_of_mem_of_nodup fc hnd kv hkv]
  rfl

theorem flatMap_congr_mem {α β : Type} {l : List α} {f g : α → List β}
    (h : ∀ x ∈ l, f x = g x) : l.flatMap f = l.flatMap g := by
  induction l with
  | nil => rfl
  | cons a t ih =>
      rw [List.flatMap_cons, List.flatMap_cons, h a (by simp),
        ih (fun x hx => h x (by simp [hx]))]

theorem normFD_entry (w : List WalkEntry) (fc : FolderDict)
    (hfc : fc = w.foldl processFC []) (hgood : GoodDict fc)
    (kv : List String × FolderData) (hkv : kv ∈ fc) :
    normFD kv.2 = canonValue w kv.1 := by
  have hitem := (hgood.1 kv hkv).2
  have hne := (hgood.1 kv hkv).1
  have hch : kv.2.children = childrenOfKey fc kv.1 :=
    entry_children fc hgood.2.2 kv hkv
  have hck : childrenOfKey fc kv.1 = imageFilesOf kv.1 (filesForRoot w kv.1) := by
    rw [hfc, childrenOfKey_foldFC kv.1 hne w []]
    show childrenOfKey [] kv.1 ++ _ = _
    rw [flatMapIf_eq_imageFiles]
    rfl
  unfold normFD canonValue
  rw [hitem, hch, hck]

theorem canonValue_congr (w₁ w₂ : List WalkEntry)
    (hnd : (w₁.map WalkEntry.root).Nodup) (heq : EquivWalk w₁ w₂)
    (k : List String) : canonValue w₁ k = canonValue w₂ k := by
  unfold canonValue
  rw [sortByName_imageFiles_eq k (filesForRoot_perm w₁ w₂ hnd heq k)]

theorem normDict_eq_map (fcS : FolderDict) (w : List WalkEntry)
    (hval : ∀ kv ∈ fcS, normFD kv.2 = canonValue w kv.1) :
    normDict fcS = (keysOf fcS).map (fun k => (k, canonValue w k)) := by
  unfold normDict keysOf
  rw [List.map_map]
  refine List.map_congr_left ?_
  intro kv hkv
  show (kv.1, normFD kv.2) = (kv.1, canonValue w kv.1)
  rw [hval kv hkv]

theorem pairwise_keyLe_normDict (fcS : FolderDict)
    (h : fcS.Pairwise (fun a b => keyLe a b = true)) :
    (normDict fcS).Pairwise (fun a b => keyLe a b = true) := by
  unfold normDict
  rw [List.pairwise_map]
  exact h

theorem keysOf_sortDict_perm (fc : FolderDict) :
    (keysOf (sortDict fc)).Perm (keysOf fc) :=
  (stableSort_perm keyLe fc).map Prod.fst

theorem mem_keys_fold_iff (w₁ w₂ : List WalkEntry) (heq : EquivWalk w₁ w₂)
    (k : List String) :
    k ∈ keysOf (w₁.foldl processFC []) ↔ k ∈ keysOf (w₂.foldl processFC []) := by
  rw [mem_keysOf_foldFC, mem_keysOf_foldFC]
  have hform : ∀ (w : List WalkEntry),
      (∃ e ∈ w, e.root ≠ [] ∧ ∃ i, i < e.root.length ∧ k = e.root.take (i + 1)) ↔
        (∃ r ∈ w.map WalkEntry.root,
          r ≠ ([] : List String) ∧ ∃ i, i < r.length ∧ k = r.take (i + 1)) := by
    intro w
    constructor
    · rintro ⟨e, he, hp⟩
      exact ⟨e.root, List.mem_map.mpr ⟨e, he, rfl⟩, hp⟩
    · rintro ⟨r, hr, hp⟩
      rcases List.mem_map.mp hr with ⟨e, he, rfl⟩
      exact ⟨e, he, hp⟩
  rw [hform w₁, hform w₂]
  refine or_congr Iff.rfl ?_
  refine exists_congr fun r => ?_
  exact and_congr heq.1.mem_iff Iff.rfl

theorem norm_sortDict_eq (w₁ w₂ : List WalkEntry)
    (hnd : (w₁.map WalkEntry.root).Nodup) (heq : EquivWalk w₁ w₂) :
    normDict (sortDict (w₁.foldl processFC [])) =
      normDict (sortDict (w₂.foldl processFC [])) := by
  have hgood₁ : GoodDict (w₁.foldl processFC []) := goodDict_foldFC w₁ [] goodDict_nil
  have hgood₂ : GoodDict (w₂.foldl processFC []) := goodDict_foldFC w₂ [] goodDict_nil
  have hgood₁S : GoodDict (sortDict (w₁.foldl processFC [])) :=
    goodDict_sortDict _ hgood₁
  have hgood₂S : GoodDict (sortDict (w₂.foldl processFC [])) :=
    goodDict_sortDict _ hgood₂
  have hval₁ : ∀ kv ∈ sortDict (w₁.foldl processFC []),
      normFD kv.2 = canonValue w₁ kv.1 := by
    intro kv hkv
    exact normFD_entry w₁ _ rfl hgood₁ kv
      ((stableSort_perm keyLe _).mem_iff.mp hkv)
  have hval₂ : ∀ kv ∈ sortDict (w₂.foldl processFC []),
      normFD kv.2 = canonValue w₂ kv.1 := by
    intro kv hkv
    exact normFD_entry w₂ _ rfl hgood₂ kv
      ((stableSort_perm keyLe _).mem_iff.mp hkv)
  have hA := normDict_eq_map (sortDict (w₁.foldl processFC [])) w₁ hval₁
  have hB := normDict_eq_map (sortDict (w₂.foldl processFC [])) w₂ hval₂
  have hB2 : normDict (sortDict (w₂.foldl processFC [])) =
      (keysOf (sortDict (w₂.foldl processFC []))).map
        (fun k => (k, canonValue w₁ k)) := by
    rw [hB]
    exact List.map_congr_left (fun k _ => by rw [canonValue_congr w₁ w₂ hnd heq k])
  have hkeysperm : (keysOf (sortDict (w₁.foldl processFC []))).Perm
      (keysOf (sortDict (w₂.foldl processFC []))) := by
    rw [List.perm_ext_iff_of_nodup hgood₁S.2.2 hgood₂S.2.2]
    intro k
    rw [(keysOf_sortDict_perm _).mem_iff, (keysOf_sortDict_perm _).mem_iff]
    exact mem_keys_fold_iff w₁ w₂ heq k
  refine eq_of_perm_of_pairwise keyLe _ _ ?_ ?_ ?_ ?_
  · rw [hA, hB2]
    exact hkeysperm.map _
  · exact pairwise_keyLe_normDict _
      (stableSort_pairwise keyLe keyLe_trans keyLe_total _)
  · exact pairwise_keyLe_normDict _
      (stableSort_pairwise keyLe keyLe_trans keyLe_total _)
  · intro x hx y hy hxy hyx
    rw [hA] at hx hy
    rcases List.mem_map.mp hx with ⟨kx, _, rfl⟩
    rcases List.mem_map.mp hy with ⟨ky, _, rfl⟩
    have hk : kx = ky := pathLe_antisymm kx ky hxy hyx
    rw [hk]

theorem filter_normDict (fcS : FolderDict) (fp : List String) :
    (normDict fcS).filter (fun kv => kv.2.item.parent == fp) =
      (fcS.filter (fun kv => kv.2.item.parent == fp)).map
        (fun kv => (kv.1, normFD kv.2)) := by
  unfold normDict
  induction fcS with
  | nil => rfl
  | cons kv rest ih =>
      rw [List.map_cons]
      by_cases h : (kv.2.item.parent == fp) = true
      · rw [List.filter_cons_of_pos (by exact h), List.filter_cons_of_pos (by exact h),
          List.map_cons, ih]
      · rw [List.filter_cons_of_neg (by exact h), List.filter_cons_of_neg (by exact h),
          ih]

theorem emit_norm (fcS : FolderDict) :
    ∀ (fuel : Nat) (fp : List String) (fd : FolderData),
      addFolderAndChildren (normDict fcS) fuel fp (normFD fd) =
        addFolderAndChildren fcS fuel fp fd := by
  intro fuel
  induction fuel with
  | zero => intro fp fd; rfl
  | succ n ih =>
      intro fp fd
      have hchildren : sortByName (normFD fd).children = sortByName fd.children := by
        show sortByName (sortByName fd.children) = sortByName fd.children
        exact stableSort_of_pairwise nameLe _
          (stableSort_pairwise nameLe nameLe_trans nameLe_total fd.children)
      show (normFD fd).item :: (sortByName (normFD fd).children ++
          ((normDict fcS).filter (fun kv => kv.2.item.parent == fp)).flatMap
            (fun kv => addFolderAndChildren (normDict fcS) n kv.1 kv.2)) = _
      rw [hchildren, filter_normDict, List.flatMap_map]
      show fd.item :: (sortByName fd.children ++ _) =
        fd.item :: (sortByName fd.children ++ _)
      rw [flatMap_congr_mem (fun kv _ => ih kv.1 kv.2)]

theorem topEmit_norm (fcS : FolderDict) (fuel : Nat) :
    topEmit (normDict fcS) fuel = topEmit fcS fuel := by
  unfold topEmit
  show (fcS.map (fun kv => (kv.1, normFD kv.2))).flatMap _ = _
  rw [List.flatMap_map]
  refine flatMap_congr_mem ?_
  intro kv _
  by_cases h : kv.2.item.parent = []
  · rw [if_pos (by exact h), if_pos h, emit_norm]
  · rw [if_neg (by exact h), if_neg h]

theorem keys_fold_length (w₁ w₂ : List WalkEntry) (heq : EquivWalk w₁ w₂) :
    (w₁.foldl processFC []).length = (w₂.foldl processFC []).length := by
  have hgood₁ : GoodDict (w₁.foldl processFC []) := goodDict_foldFC w₁ [] goodDict_nil
  have hgood₂ : GoodDict (w₂.foldl processFC []) := goodDict_foldFC w₂ [] goodDict_nil
  have hperm : (keysOf (w₁.foldl processFC [])).Perm
      (keysOf (w₂.foldl processFC [])) := by
    rw [List.perm_ext_iff_of_nodup hgood₁.2.2 hgood₂.2.2]
    exact mem_keys_fold_iff w₁ w₂ heq
  have h1 : (keysOf (w₁.foldl processFC [])).length = (w₁.foldl processFC []).length :=
    List.length_map _ _
  have h2 : (keysOf (w₂.foldl processFC [])).length = (w₂.foldl processFC []).length :=
    List.length_map _ _
  rw [← h1, ← h2]
  exact hperm.length_eq

/-- C9: the scan output is identical for any two walks that enumerate the
same unchanged directory tree, whatever order the walk reports directories
and files in. -/
theorem scan_deterministic (w₁ w₂ : List WalkEntry)
    (hnd : (w₁.map WalkEntry.root).Nodup) (heq : EquivWalk w₁ w₂) :
    load_images w₁ = load_images w₂ := by
  have hnd₂ : (w₂.map WalkEntry.root).Nodup := heq.1.nodup hnd
  have hsnd : (w₁.foldl processEntry ([], [])).2 =
      (w₂.foldl processEntry ([], [])).2 := by
    rw [fold_snd, fold_snd]
    simp only [List.nil_append]
    rw [flatMap_sorted_rootfiles w₁ hnd, flatMap_sorted_rootfiles w₂ hnd₂]
    exact sortByName_imageFiles_eq [] (filesForRoot_perm w₁ w₂ hnd heq [])
  have hf₁ : (w₁.foldl processEntry ([], [])).1 = w₁.foldl processFC [] :=
    fold_fst w₁ ([], [])
  have hf₂ : (w₂.foldl processEntry ([], [])).1 = w₂.foldl processFC [] :=
    fold_fst w₂ ([], [])
  show (w₁.foldl processEntry ([], [])).2 ++
      topEmit (sortDict (w₁.foldl processEntry ([], [])).1)
        (w₁.foldl processEntry ([], [])).1.length =
    (w₂.foldl processEntry ([], [])).2 ++
      topEmit (sortDict (w₂.foldl processEntry ([], [])).1)
        (w₂.foldl processEntry ([], [])).1.length
  rw [hsnd, hf₁, hf₂, keys_fold_length w₁ w₂ heq,
    ← topEmit_norm (sortDict (w₁.foldl processFC [])),
    ← topEmit_norm (sortDict (w₂.foldl processFC [])),
    norm_sortDict_eq w₁ w₂ hnd heq]

theorem scan_deterministic_witness :
    (([{ root := [], files := ["b.png", "a.png"] },
       { root := ["s"], files := ["c.jpg"] }] : List WalkEntry).map
        WalkEntry.root).Nodup ∧
    EquivWalk
      [{ root := [], files := ["b.png", "a.png"] },
       { root := ["s"], files := ["c.jpg"] }]
      [{ root := ["s"], files := ["c.jpg"] },
       { root := [], files := ["a.png", "b.png"] }] ∧
    load_images
        [{ root := [], files := ["b.png", "a.png"] },
         { root := ["s"], files := ["c.jpg"] }] =
      load_images
        [{ root := ["s"], files := ["c.jpg"] },
         { root := [], files := ["a.png", "b.png"] }] :=
  ⟨by decide,
   by
    unfold EquivWalk
    exact ⟨by decide, by decide⟩,
   scan_deterministic
     [{ root := [], files := ["b.png", "a.png"] },
      { root := ["s"], files := ["c.jpg"] }]
     [{ root := ["s"], files := ["c.jpg"] },
      { root := [], files := ["a.png", "b.png"] }]
     (by decide)
     (by
      unfold EquivWalk
      exact ⟨by decide, by decide⟩)⟩

end TextureTool
